import Mathlib

/-!
# CustomData (src/core/CustomData.cpp)

A shallow embedding of the key/value store `CustomData` and of the signals it
emits, followed by the properties of the store that are checked against it.

* `QString` is `String`, `QHash<QString, QString>` is a finite map with unique
  keys and extensional equality (`Finmap`), as `QHash::operator==` compares
  content only.
* An object is its map `m_data` together with the list of signals it has
  emitted so far; every statement of a member function is one step on that
  state, in the order of the source.
* `Clock::currentDateTimeUtc().toString()` is not part of the file: the string
  it returns for a call is the parameter `now` of each mutating operation.
* `Q_ASSERT` is compiled out (release build).
* `int` is 32 bits: the accumulator of `dataSize` wraps around.
-/

/-- The Qt string type. -/
abbrev QString := String

/-- The Qt hash map from strings to strings: unique keys, no order. -/
abbrev QHash := Finmap (fun _ : QString => QString)

namespace QHash

/-- Presence test, `QHash::contains`. -/
def contains (m : QHash) (key : QString) : Bool :=
  decide (key ∈ m)

/-- Lookup with a default-constructed (empty) string for an absent key, `QHash::value`. -/
def value (m : QHash) (key : QString) : QString :=
  (Finmap.lookup key m).getD ""

/-- Insert or overwrite, `QHash::insert`. -/
def insert (m : QHash) (key value : QString) : QHash :=
  Finmap.insert key value m

/-- Erase a key if present, `QHash::remove`. -/
def remove (m : QHash) (key : QString) : QHash :=
  Finmap.erase key m

/-- Number of entries, `QHash::size`. -/
def size (m : QHash) : Nat :=
  m.keys.card

/-- Emptiness, `QHash::isEmpty`. -/
def isEmpty (m : QHash) : Bool :=
  m.size == 0

/-- The map without entries, the result of `QHash::clear`. -/
def clear (_m : QHash) : QHash :=
  ∅

end QHash

/-- The signals of `CustomData`, with `modified` inherited from `ModifiableObject`. -/
inductive Signal where
  | aboutToBeAdded (key : QString)
  | added (key : QString)
  | aboutToBeRemoved (key : QString)
  | removed (key : QString)
  | aboutToRename (oldKey newKey : QString)
  | renamed (oldKey newKey : QString)
  | aboutToBeReset
  | reset
  | modified
  deriving DecidableEq

/-- A `CustomData` object: the member `m_data` and the signals emitted so far, oldest first. -/
structure CustomData where
  m_data : QHash
  emitted : List Signal
  deriving DecidableEq

namespace CustomData

/-- The reserved key `CustomData::LastModified`. -/
def LastModified : QString := "_LAST_MODIFIED"

/-- A freshly constructed object: no entries, nothing emitted. -/
def empty : CustomData :=
  ⟨∅, []⟩

/-- The statement `emit s`. -/
def emit (d : CustomData) (s : Signal) : CustomData :=
  { d with emitted := d.emitted ++ [s] }

/-- Modelled from the spec: `ModifiableObject::emitModified` is declared outside this file;
the spec has every call of it "emit *modified*". -/
def emitModified (d : CustomData) : CustomData :=
  d.emit Signal.modified

/-- The keys of the store, as a set (`CustomData::keys`, order left out). -/
def keys (d : CustomData) : Finset QString :=
  d.m_data.keys

/-- `CustomData::hasKey`. -/
def hasKey (d : CustomData) (key : QString) : Bool :=
  d.m_data.contains key

/-- `CustomData::value`. -/
def value (d : CustomData) (key : QString) : QString :=
  d.m_data.value key

/-- `CustomData::contains`. -/
def contains (d : CustomData) (key : QString) : Bool :=
  d.m_data.contains key

/-- `CustomData::operator==`: content of the maps only. -/
def operatorEq (d other : CustomData) : Bool :=
  decide (d.m_data = other.m_data)

/-- `CustomData::operator!=`. -/
def operatorNe (d other : CustomData) : Bool :=
  decide (d.m_data ≠ other.m_data)

/-- `CustomData::isEmpty`. -/
def isEmpty (d : CustomData) : Bool :=
  d.m_data.isEmpty

/-- `CustomData::size`. -/
def size (d : CustomData) : Nat :=
  d.m_data.size

/-- The value a C++ `int` (32 bits, two's complement) takes when a computation yields `x`:
`x` itself from `-2^31` to `2^31 - 1`, wrapped around outside. -/
def wrapInt32 (x : Int) : Int :=
  (x + 2147483648) % 4294967296 - 2147483648

/-- One turn of the loop of `CustomData::dataSize`,
`size += i.key().toUtf8().size() + i.value().toUtf8().size()`, both additions in `int`. -/
def dataSizeStep (size : Int) (key value : QString) : Int :=
  wrapInt32 (size + wrapInt32 ((key.utf8ByteSize : Int) + (value.utf8ByteSize : Int)))

/-- `CustomData::dataSize`: the loop over the entries of the hash, in whatever order, the
accumulator `size` an `int` starting at 0. -/
def dataSize (d : CustomData) : Int :=
  Finmap.foldl dataSizeStep
    (fun size k1 v1 k2 v2 => by
      unfold dataSizeStep wrapInt32
      omega)
    0 d.m_data

/-- `CustomData::updateLastModified`, with `now` the string of the clock. -/
def updateLastModified (d : CustomData) (now : QString) : CustomData :=
  if d.m_data.isEmpty || (d.m_data.size == 1 && d.m_data.contains LastModified) then
    { d with m_data := d.m_data.remove LastModified }
  else
    { d with m_data := d.m_data.insert LastModified now }

/-- `CustomData::set`. -/
def set (d : CustomData) (key value : QString) (now : QString) : CustomData :=
  let addAttribute := !d.m_data.contains key
  let changeValue := !addAttribute && (d.m_data.value key != value)
  let d1 := if addAttribute then d.emit (Signal.aboutToBeAdded key) else d
  let d2 :=
    if addAttribute || changeValue then
      (({ d1 with m_data := d1.m_data.insert key value }).updateLastModified now).emitModified
    else d1
  if addAttribute then d2.emit (Signal.added key) else d2

/-- `CustomData::remove`. -/
def remove (d : CustomData) (key : QString) (now : QString) : CustomData :=
  let d1 := d.emit (Signal.aboutToBeRemoved key)
  let d2 :=
    if d1.m_data.contains key then
      (({ d1 with m_data := d1.m_data.remove key }).updateLastModified now).emitModified
    else d1
  d2.emit (Signal.removed key)

/-- `CustomData::rename`, the assertion compiled out. -/
def rename (d : CustomData) (oldKey newKey : QString) (now : QString) : CustomData :=
  let containsOldKey := d.m_data.contains oldKey
  let containsNewKey := d.m_data.contains newKey
  if !containsOldKey || containsNewKey then d
  else
    let data := d.value oldKey
    let d1 := d.emit (Signal.aboutToRename oldKey newKey)
    let d2 := { d1 with m_data := d1.m_data.remove oldKey }
    let d3 := { d2 with m_data := d2.m_data.insert newKey data }
    ((d3.updateLastModified now).emitModified).emit (Signal.renamed oldKey newKey)

/-- `CustomData::copyDataFrom`. -/
def copyDataFrom (d other : CustomData) (now : QString) : CustomData :=
  if d.operatorEq other then d
  else
    let d1 := d.emit Signal.aboutToBeReset
    let d2 := { d1 with m_data := other.m_data }
    let d3 := d2.updateLastModified now
    (d3.emit Signal.reset).emitModified

/-- `CustomData::clear`. -/
def clear (d : CustomData) : CustomData :=
  let d1 := d.emit Signal.aboutToBeReset
  let d2 := { d1 with m_data := d1.m_data.clear }
  (d2.emit Signal.reset).emitModified

/-- The states an object can be in: constructed empty, then any finite sequence of
`set`, `remove`, `rename`, `copyDataFrom` (from an object that is itself reachable) and
`clear`, with any clock strings. -/
inductive Reachable : CustomData → Prop where
  | empty : Reachable CustomData.empty
  | set (d : CustomData) (key value now : QString) :
      Reachable d → Reachable (d.set key value now)
  | remove (d : CustomData) (key now : QString) :
      Reachable d → Reachable (d.remove key now)
  | rename (d : CustomData) (oldKey newKey now : QString) :
      Reachable d → Reachable (d.rename oldKey newKey now)
  | copyDataFrom (d other : CustomData) (now : QString) :
      Reachable d → Reachable other → Reachable (d.copyDataFrom other now)
  | clear (d : CustomData) :
      Reachable d → Reachable d.clear

/-- The sentinel is present exactly when some other key is. -/
def SentinelInv (m : QHash) : Prop :=
  m.contains LastModified = true ↔ ∃ k, k ≠ LastModified ∧ m.contains k = true

/-- The store `{a: v, "_LAST_MODIFIED": t0}`, nothing emitted yet. -/
def storeOf (a v t0 : QString) : CustomData :=
  ⟨((∅ : QHash).insert a v).insert LastModified t0, []⟩

/-- The store `{"A": "1", "_LAST_MODIFIED": "t0"}`, nothing emitted yet. -/
def storeA : CustomData :=
  storeOf "A" "1" "t0"

/-- The last-modified maintenance rule in the words of the spec, for the map `m` left by an
operation's own change, the clock string `now` of the call and the object `r` after the
call: if `m` is empty or contains only `_LAST_MODIFIED`, then `_LAST_MODIFIED` is absent from
`r` and `r` is empty; otherwise `_LAST_MODIFIED` is present in `r` with the value `now`. -/
def LastModifiedRule (m : QHash) (now : QString) (r : CustomData) : Prop :=
  ((∀ k, m.contains k = true → k = LastModified) →
      r.contains LastModified = false ∧ r.isEmpty = true) ∧
    (¬ (∀ k, m.contains k = true → k = LastModified) →
      r.contains LastModified = true ∧ r.value LastModified = now)

/-- The pathological store `{"_LAST_MODIFIED": t0}`, the sentinel alone, nothing emitted
yet. -/
def sentinelOnly (t0 : QString) : CustomData :=
  ⟨(∅ : QHash).insert LastModified t0, []⟩

/-- Reachability with a record of the clock: `ReachableClock clocks d` when `d` is reached
from the empty store by `set`, `remove`, `rename`, `copyDataFrom` (from a store reachable
with a clock record of its own) and `clear`, and `clocks` lists, latest first, the strings
the clock had for the calls made on `d` so far (`clear` does not read the clock). -/
inductive ReachableClock : List QString → CustomData → Prop where
  | empty : ReachableClock [] CustomData.empty
  | set (clocks : List QString) (d : CustomData) (key value now : QString) :
      ReachableClock clocks d → ReachableClock (now :: clocks) (d.set key value now)
  | remove (clocks : List QString) (d : CustomData) (key now : QString) :
      ReachableClock clocks d → ReachableClock (now :: clocks) (d.remove key now)
  | rename (clocks : List QString) (d : CustomData) (oldKey newKey now : QString) :
      ReachableClock clocks d → ReachableClock (now :: clocks) (d.rename oldKey newKey now)
  | copyDataFrom (clocks clocksOther : List QString) (d other : CustomData) (now : QString) :
      ReachableClock clocks d → ReachableClock clocksOther other →
        ReachableClock (now :: clocks) (d.copyDataFrom other now)
  | clear (clocks : List QString) (d : CustomData) :
      ReachableClock clocks d → ReachableClock clocks d.clear

/-- The string of `n` letters `x`. -/
def xs (n : Nat) : QString :=
  String.mk (List.replicate n 'x')

/-- The store with the keys `"a"`, `"b"` and `"c"`, each with the value `v`, and
`_LAST_MODIFIED` with the value `"t0"`; with `v` of 800,000,000 letters it holds
2,400,000,019 bytes. -/
def bigStore (v : QString) : CustomData :=
  ⟨((((∅ : QHash).insert "a" v).insert "b" v).insert "c" v).insert LastModified "t0", []⟩

/-- How many times `modified` stands in a list of signals. -/
def modifiedCount (signals : List Signal) : Nat :=
  signals.count Signal.modified

/-- A call taking the object `d` to `r` has fired `modified` at most once, and once if the
map after the call differs from the map before it. -/
def ModifiedOnChange (d r : CustomData) : Prop :=
  (modifiedCount r.emitted = modifiedCount d.emitted ∨
      modifiedCount r.emitted = modifiedCount d.emitted + 1) ∧
    (r.m_data ≠ d.m_data → modifiedCount r.emitted = modifiedCount d.emitted + 1)

/-- A call taking the object `d` to `r` has fired `modified`, once. -/
def FiredModified (d r : CustomData) : Prop :=
  modifiedCount r.emitted = modifiedCount d.emitted + 1

end CustomData

/-! ## Facts about the map operations -/

namespace QHash

theorem contains_eq_true_iff (m : QHash) (k : QString) : m.contains k = true ↔ k ∈ m := by
  simp [contains]

theorem contains_eq_false_iff (m : QHash) (k : QString) : m.contains k = false ↔ k ∉ m := by
  simp [contains]

theorem contains_insert (m : QHash) (k v j : QString) :
    (m.insert k v).contains j = (decide (j = k) || m.contains j) := by
  simp [contains, insert, Finmap.mem_insert]

theorem contains_remove (m : QHash) (k j : QString) :
    (m.remove k).contains j = (decide (j ≠ k) && m.contains j) := by
  simp [contains, remove, Finmap.mem_erase]

theorem value_insert_self (m : QHash) (k v : QString) : (m.insert k v).value k = v := by
  simp [value, insert, Finmap.lookup_insert]

theorem value_insert_of_ne (m : QHash) (k v j : QString) (h : j ≠ k) :
    (m.insert k v).value j = m.value j := by
  simp [value, insert, Finmap.lookup_insert_of_ne m h]

theorem value_remove_of_ne (m : QHash) (k j : QString) (h : j ≠ k) :
    (m.remove k).value j = m.value j := by
  simp [value, remove, Finmap.lookup_erase_ne h]

theorem lookup_eq_some_iff (m : QHash) (k v : QString) :
    Finmap.lookup k m = some v ↔ m.contains k = true ∧ m.value k = v := by
  simp only [contains_eq_true_iff, value]
  constructor
  · intro h
    exact ⟨Finmap.mem_of_lookup_eq_some h, by simp [h]⟩
  · rintro ⟨hk, hv⟩
    obtain ⟨w, hw⟩ := Finmap.mem_iff.mp hk
    rw [hw] at hv ⊢
    simpa using hv

theorem insert_eq_self_iff (m : QHash) (k v : QString) :
    m.insert k v = m ↔ Finmap.lookup k m = some v := by
  unfold insert
  constructor
  · intro h
    rw [← h]
    exact Finmap.lookup_insert m
  · intro h
    apply Finmap.ext_lookup
    intro x
    by_cases hx : x = k
    · subst hx
      rw [Finmap.lookup_insert, h]
    · rw [Finmap.lookup_insert_of_ne m hx]

theorem remove_eq_self_iff (m : QHash) (k : QString) :
    m.remove k = m ↔ m.contains k = false := by
  unfold remove
  rw [contains_eq_false_iff]
  constructor
  · intro h hk
    rw [← h] at hk
    exact Finmap.not_mem_erase_self hk
  · intro h
    apply Finmap.ext_lookup
    intro x
    by_cases hx : x = k
    · subst hx
      rw [Finmap.lookup_erase, Finmap.lookup_eq_none.mpr h]
    · rw [Finmap.lookup_erase_ne hx]

theorem keys_insert (m : QHash) (k v : QString) :
    (m.insert k v).keys = Insert.insert k m.keys := by
  ext j
  simp [insert, Finmap.mem_keys, Finmap.mem_insert]

theorem keys_remove (m : QHash) (k : QString) : (m.remove k).keys = m.keys.erase k := by
  simp [remove, Finmap.keys_erase]

theorem isEmpty_eq_true_iff (m : QHash) : m.isEmpty = true ↔ ∀ k, m.contains k = false := by
  simp only [isEmpty, size, beq_iff_eq, Finset.card_eq_zero, contains_eq_false_iff]
  constructor
  · intro h k hk
    have := Finmap.mem_keys.mpr hk
    simp [h] at this
  · intro h
    apply Finset.eq_empty_of_forall_not_mem
    intro k hk
    exact h k (Finmap.mem_keys.mp hk)

/-- The test of `updateLastModified` holds exactly when no key other than `s` is present. -/
theorem alone_iff (m : QHash) (s : QString) :
    (m.isEmpty || (m.size == 1 && m.contains s)) = true ↔ ∀ k, m.contains k = true → k = s := by
  simp only [Bool.or_eq_true, Bool.and_eq_true, beq_iff_eq, isEmpty, size, Finset.card_eq_zero,
    contains_eq_true_iff]
  constructor
  · rintro (h | ⟨h1, hs⟩) k hk
    · have := Finmap.mem_keys.mpr hk
      simp [h] at this
    · obtain ⟨a, ha⟩ := Finset.card_eq_one.mp h1
      have hk2 := Finmap.mem_keys.mpr hk
      have hs2 := Finmap.mem_keys.mpr hs
      rw [ha, Finset.mem_singleton] at hk2 hs2
      rw [hk2, hs2]
  · intro h
    by_cases hs : s ∈ m
    · right
      refine ⟨?_, hs⟩
      apply Finset.card_eq_one.mpr
      refine ⟨s, ?_⟩
      ext k
      simp only [Finmap.mem_keys, Finset.mem_singleton]
      constructor
      · exact h k
      · rintro rfl; exact hs
    · left
      apply Finset.eq_empty_of_forall_not_mem
      intro k hk
      have hk2 := Finmap.mem_keys.mp hk
      exact hs (h k hk2 ▸ hk2)

end QHash

/-! ## Facts about the steps of the member functions -/

namespace CustomData

@[simp]
theorem emit_m_data (d : CustomData) (s : Signal) : (d.emit s).m_data = d.m_data := rfl

@[simp]
theorem emit_emitted (d : CustomData) (s : Signal) :
    (d.emit s).emitted = d.emitted ++ [s] := rfl

@[simp]
theorem emitModified_m_data (d : CustomData) : d.emitModified.m_data = d.m_data := rfl

@[simp]
theorem emitModified_emitted (d : CustomData) :
    d.emitModified.emitted = d.emitted ++ [Signal.modified] := rfl

@[simp]
theorem updateLastModified_emitted (d : CustomData) (now : QString) :
    (d.updateLastModified now).emitted = d.emitted := by
  unfold updateLastModified
  split <;> rfl

/-- The map after `updateLastModified` depends on the map before it only. -/
theorem updateLastModified_m_data (d : CustomData) (now : QString) :
    (d.updateLastModified now).m_data =
      if d.m_data.isEmpty || (d.m_data.size == 1 && d.m_data.contains LastModified) then
        d.m_data.remove LastModified
      else d.m_data.insert LastModified now := by
  unfold updateLastModified
  split <;> rfl

/-- Whatever the map was, after `updateLastModified` the sentinel is there exactly when
another key is. -/
theorem sentinelInv_updateLastModified (d : CustomData) (now : QString) :
    SentinelInv (d.updateLastModified now).m_data := by
  rw [updateLastModified_m_data]
  unfold SentinelInv
  split
  next h =>
    have hal := (QHash.alone_iff d.m_data LastModified).mp h
    simp only [QHash.contains_remove]
    constructor
    · intro hc; simp at hc
    · rintro ⟨k, hk, hc⟩
      simp only [Bool.and_eq_true, decide_eq_true_eq] at hc
      exact absurd (hal k hc.2) hk
  next h =>
    have hal : ¬ ∀ k, d.m_data.contains k = true → k = LastModified :=
      fun hh => h ((QHash.alone_iff d.m_data LastModified).mpr hh)
    push_neg at hal
    obtain ⟨k, hk, hne⟩ := hal
    simp only [QHash.contains_insert]
    constructor
    · intro _
      exact ⟨k, hne, by simp [hk]⟩
    · intro _
      simp

/-- The maintenance rule, in the words of the spec, holds of whatever has the map that
`updateLastModified` leaves. -/
theorem lastModifiedRule_of_updateLastModified (d r : CustomData) (now : QString)
    (hr : r.m_data = (d.updateLastModified now).m_data) :
    LastModifiedRule d.m_data now r := by
  unfold LastModifiedRule
  simp only [contains, isEmpty, value, hr]
  rw [updateLastModified_m_data]
  constructor
  · intro hal
    rw [if_pos ((QHash.alone_iff d.m_data LastModified).mpr hal)]
    refine ⟨by simp [QHash.contains_remove], ?_⟩
    rw [QHash.isEmpty_eq_true_iff]
    intro k
    rw [QHash.contains_remove]
    by_cases hk : k = LastModified
    · simp [hk]
    · cases hc : d.m_data.contains k
      · simp
      · exact absurd (hal k hc) hk
  · intro hal
    rw [if_neg (fun hh => hal ((QHash.alone_iff d.m_data LastModified).mp hh))]
    exact ⟨by simp [QHash.contains_insert], QHash.value_insert_self _ _ _⟩

theorem sentinelInv_empty : SentinelInv (∅ : QHash) := by
  unfold SentinelInv
  simp [QHash.contains, Finmap.not_mem_empty]

/-- Every member function keeps the sentinel invariant. -/
theorem sentinelInv_of_reachable (d : CustomData) (h : Reachable d) : SentinelInv d.m_data := by
  induction h with
  | empty => exact sentinelInv_empty
  | set d key value now _ ih =>
    unfold set
    dsimp only
    split_ifs <;>
      first
        | exact ih
        | (simp only [emit_m_data, emitModified_m_data]
           exact sentinelInv_updateLastModified _ now)
  | remove d key now _ ih =>
    unfold remove
    dsimp only
    split_ifs <;>
      first
        | exact ih
        | (simp only [emit_m_data, emitModified_m_data]
           exact sentinelInv_updateLastModified _ now)
  | rename d oldKey newKey now _ ih =>
    unfold rename
    dsimp only
    split_ifs <;>
      first
        | exact ih
        | (simp only [emit_m_data, emitModified_m_data]
           exact sentinelInv_updateLastModified _ now)
  | copyDataFrom d other now _ _ ih _ =>
    unfold copyDataFrom
    dsimp only
    split_ifs <;>
      first
        | exact ih
        | (simp only [emit_m_data, emitModified_m_data]
           exact sentinelInv_updateLastModified _ now)
  | clear d _ _ =>
    exact sentinelInv_empty

end CustomData

namespace CustomData

/-- `updateLastModified` touches no key other than the sentinel: presence. -/
theorem updateLastModified_contains_of_ne (d : CustomData) (now k : QString)
    (hk : k ≠ LastModified) :
    (d.updateLastModified now).m_data.contains k = d.m_data.contains k := by
  rw [updateLastModified_m_data]
  split
  · simp [QHash.contains_remove, hk]
  · simp [QHash.contains_insert, hk]

/-- `updateLastModified` touches no key other than the sentinel: value. -/
theorem updateLastModified_value_of_ne (d : CustomData) (now k : QString)
    (hk : k ≠ LastModified) :
    (d.updateLastModified now).m_data.value k = d.m_data.value k := by
  rw [updateLastModified_m_data]
  split
  · exact QHash.value_remove_of_ne _ _ _ hk
  · exact QHash.value_insert_of_ne _ _ _ _ hk

/-- `set` of an absent key runs all three blocks. -/
theorem set_of_absent (d : CustomData) (key value now : QString)
    (h : d.m_data.contains key = false) :
    d.set key value now =
      ((({ d.emit (Signal.aboutToBeAdded key) with
            m_data := d.m_data.insert key value }).updateLastModified now).emitModified).emit
        (Signal.added key) := by
  simp [set, h]

/-- `set` of a present key to another value runs the middle block only. -/
theorem set_of_changed (d : CustomData) (key value now : QString)
    (h : d.m_data.contains key = true) (hv : d.m_data.value key ≠ value) :
    d.set key value now =
      (({ d with m_data := d.m_data.insert key value }).updateLastModified now).emitModified := by
  simp [set, h, hv]

/-- `set` of a present key to the value it has runs no block. -/
theorem set_of_same (d : CustomData) (key value now : QString)
    (h : d.m_data.contains key = true) (hv : d.m_data.value key = value) :
    d.set key value now = d := by
  simp [set, h, hv]

/-- `remove` of a present key. -/
theorem remove_of_present (d : CustomData) (key now : QString)
    (h : d.m_data.contains key = true) :
    d.remove key now =
      ((({ d.emit (Signal.aboutToBeRemoved key) with
            m_data := d.m_data.remove key }).updateLastModified now).emitModified).emit
        (Signal.removed key) := by
  simp [remove, h]

/-- `remove` of an absent key. -/
theorem remove_of_absent (d : CustomData) (key now : QString)
    (h : d.m_data.contains key = false) :
    d.remove key now = (d.emit (Signal.aboutToBeRemoved key)).emit (Signal.removed key) := by
  simp [remove, h]

/-- `rename` when the early return is taken. -/
theorem rename_of_rejected (d : CustomData) (oldKey newKey now : QString)
    (h : d.m_data.contains oldKey = false ∨ d.m_data.contains newKey = true) :
    d.rename oldKey newKey now = d := by
  rcases h with h | h <;> simp [rename, h]

/-- `rename` when the early return is not taken. -/
theorem rename_of_accepted (d : CustomData) (oldKey newKey now : QString)
    (ho : d.m_data.contains oldKey = true) (hn : d.m_data.contains newKey = false) :
    d.rename oldKey newKey now =
      ((({ d.emit (Signal.aboutToRename oldKey newKey) with
            m_data := (d.m_data.remove oldKey).insert newKey (d.value oldKey)
          }).updateLastModified now).emitModified).emit (Signal.renamed oldKey newKey) := by
  simp [rename, ho, hn]

/-- `copyDataFrom` an object with the same content. -/
theorem copyDataFrom_of_equal (d other : CustomData) (now : QString)
    (h : d.operatorEq other = true) : d.copyDataFrom other now = d := by
  simp [copyDataFrom, h]

/-- `copyDataFrom` an object with other content. -/
theorem copyDataFrom_of_unequal (d other : CustomData) (now : QString)
    (h : d.operatorEq other = false) :
    d.copyDataFrom other now =
      ((({ d.emit Signal.aboutToBeReset with
            m_data := other.m_data }).updateLastModified now).emit Signal.reset).emitModified := by
  simp [copyDataFrom, h]

end CustomData

/-! ## The claims -/

namespace CustomData

/-- Claim C1, the sentinel invariant: in every state reachable from the empty store by
`set`, `remove`, `rename`, `copyDataFrom` (from a reachable store) and `clear`, with any
clock strings, `_LAST_MODIFIED` is present if and only if some other key is present. -/
theorem sentinel_invariant (d : CustomData) (h : Reachable d) :
    d.contains LastModified = true ↔ ∃ k, k ≠ LastModified ∧ d.contains k = true :=
  sentinelInv_of_reachable d h

/-- Claim C1 at the state reached by `set("A", "1")` on the empty store. -/
theorem sentinel_invariant_witness :
    Reachable (CustomData.empty.set "A" "1" "t0") ∧
      ((CustomData.empty.set "A" "1" "t0").contains LastModified = true ↔
        ∃ k, k ≠ LastModified ∧ (CustomData.empty.set "A" "1" "t0").contains k = true) :=
  ⟨Reachable.set _ _ _ _ Reachable.empty,
    sentinel_invariant _ (Reachable.set _ _ _ _ Reachable.empty)⟩

/-- Claim C2 as stated fails: in `{"A": "1", "_LAST_MODIFIED": "t0"}` the key
`_LAST_MODIFIED` is present and `"B"` is absent, and after
`rename("_LAST_MODIFIED", "B")` the old key `_LAST_MODIFIED` is present again, next to
the new key. -/
theorem rename_atomic_counterexample :
    storeA.contains LastModified = true ∧ storeA.contains "B" = false ∧
      ¬ ((storeA.rename LastModified "B" "t1").contains LastModified = false ∧
          (storeA.rename LastModified "B" "t1").contains "B" = true ∧
          (storeA.rename LastModified "B" "t1").value "B" = storeA.value LastModified) ∧
      (storeA.rename LastModified "B" "t1").contains LastModified = true ∧
      (storeA.rename LastModified "B" "t1").contains "B" = true := by
  decide

/-- Claim C2, amended to keys other than the sentinel: if `a` is present, `b` is absent and
neither is `_LAST_MODIFIED`, then after `rename(a, b)` the key `a` is absent, `b` is present
and `value(b)` is the value `a` had before the call. -/
theorem rename_atomic (d : CustomData) (a b now : QString)
    (ha : d.contains a = true) (hb : d.contains b = false)
    (haS : a ≠ LastModified) (hbS : b ≠ LastModified) :
    (d.rename a b now).contains a = false ∧ (d.rename a b now).contains b = true ∧
      (d.rename a b now).value b = d.value a := by
  have hab : a ≠ b := by
    rintro rfl
    rw [ha] at hb
    exact Bool.noConfusion hb
  unfold contains at ha hb
  rw [rename_of_accepted d a b now ha hb]
  simp only [contains, value, emit_m_data, emitModified_m_data]
  rw [updateLastModified_contains_of_ne _ _ _ haS, updateLastModified_contains_of_ne _ _ _ hbS,
    updateLastModified_value_of_ne _ _ _ hbS]
  refine ⟨?_, ?_, ?_⟩
  · simp [QHash.contains_insert, QHash.contains_remove, hab]
  · simp [QHash.contains_insert]
  · simp [QHash.value_insert_self]

/-- Claim C2 amended, at `rename("A", "B")` on `{"A": "1", "_LAST_MODIFIED": "t0"}`. -/
theorem rename_atomic_witness :
    (storeA.rename "A" "B" "t1").contains "A" = false ∧
      (storeA.rename "A" "B" "t1").contains "B" = true ∧
      (storeA.rename "A" "B" "t1").value "B" = storeA.value "A" :=
  rename_atomic storeA "A" "B" "t1" (by decide) (by decide) (by decide) (by decide)

/-- Claim C3, rename rejection: if `a` is absent or `b` is present, `rename(a, b)` leaves the
map as it was (same keys and values, `_LAST_MODIFIED` included) and emits no signal. -/
theorem rename_rejected (d : CustomData) (a b now : QString)
    (h : d.contains a = false ∨ d.contains b = true) :
    (d.rename a b now).m_data = d.m_data ∧ (d.rename a b now).emitted = d.emitted := by
  rw [rename_of_rejected d a b now h]
  exact ⟨rfl, rfl⟩

/-- Claim C3 at `rename("A", "_LAST_MODIFIED")` on `{"A": "1", "_LAST_MODIFIED": "t0"}`,
where the new key is present. -/
theorem rename_rejected_witness :
    (storeA.rename "A" LastModified "t1").m_data = storeA.m_data ∧
      (storeA.rename "A" LastModified "t1").emitted = storeA.emitted :=
  rename_rejected storeA "A" LastModified "t1" (Or.inr (by decide))

/-- Claim C4 as stated fails: the empty store and `{"A": "1", "_LAST_MODIFIED": "t0"}` are
not content-equal, and after `copyDataFrom` at clock string `"t1"` they are still not
equal, the copy holding `"t1"` under `_LAST_MODIFIED`. -/
theorem copyDataFrom_equal_counterexample :
    CustomData.empty.operatorEq storeA = false ∧
      (CustomData.empty.copyDataFrom storeA "t1").operatorEq storeA = false ∧
      (CustomData.empty.copyDataFrom storeA "t1").value LastModified = "t1" ∧
      storeA.value LastModified = "t0" := by
  decide

/-- Claim C4, amended: for stores that are not content-equal, after
`store.copyDataFrom(other)` every key other than `_LAST_MODIFIED` has in `store` the
presence and the value it has in `other`; and `store == other` holds exactly when `other`
holds `_LAST_MODIFIED` if and only if it holds another key, and holds the clock string of
this call under it when it holds it. -/
theorem copyDataFrom_replaces (d other : CustomData) (now : QString)
    (h : d.operatorEq other = false) :
    (∀ k, k ≠ LastModified →
        (d.copyDataFrom other now).contains k = other.contains k ∧
          (d.copyDataFrom other now).value k = other.value k) ∧
      ((d.copyDataFrom other now).operatorEq other = true ↔
        ((other.contains LastModified = true ↔
            ∃ k, k ≠ LastModified ∧ other.contains k = true) ∧
          (other.contains LastModified = true → other.value LastModified = now))) := by
  rw [copyDataFrom_of_unequal d other now h]
  simp only [contains, value, operatorEq, emit_m_data, emitModified_m_data, decide_eq_true_eq]
  constructor
  · intro k hk
    exact ⟨updateLastModified_contains_of_ne _ _ _ hk, updateLastModified_value_of_ne _ _ _ hk⟩
  · rw [updateLastModified_m_data]
    dsimp only [emit_m_data]
    split
    next hal =>
      have hal2 := (QHash.alone_iff other.m_data LastModified).mp hal
      rw [QHash.remove_eq_self_iff]
      constructor
      · intro hno
        simp only [hno, Bool.false_eq_true, false_iff, not_exists, not_and, false_implies,
          and_true]
        intro k hk hc
        exact hk (hal2 k hc)
      · rintro ⟨hiff, _⟩
        cases hc : other.m_data.contains LastModified
        · rfl
        · obtain ⟨k, hk, hkc⟩ := hiff.mp hc
          exact absurd (hal2 k hkc) hk
    next hal =>
      have hal2 : ¬ ∀ k, other.m_data.contains k = true → k = LastModified :=
        fun hh => hal ((QHash.alone_iff other.m_data LastModified).mpr hh)
      push_neg at hal2
      obtain ⟨k, hkc, hk⟩ := hal2
      rw [QHash.insert_eq_self_iff, QHash.lookup_eq_some_iff]
      constructor
      · rintro ⟨hc, hv⟩
        exact ⟨⟨fun _ => ⟨k, hk, hkc⟩, fun _ => hc⟩, fun _ => hv⟩
      · rintro ⟨hiff, hv⟩
        have hc := hiff.mpr ⟨k, hk, hkc⟩
        exact ⟨hc, hv hc⟩

/-- Claim C4 amended, at the empty store copying `{"A": "1", "_LAST_MODIFIED": "t0"}` with
the clock at `"t0"`: here the copy is equal to its source. -/
theorem copyDataFrom_replaces_witness :
    (∀ k, k ≠ LastModified →
        (CustomData.empty.copyDataFrom storeA "t0").contains k = storeA.contains k ∧
          (CustomData.empty.copyDataFrom storeA "t0").value k = storeA.value k) ∧
      ((CustomData.empty.copyDataFrom storeA "t0").operatorEq storeA = true ↔
        ((storeA.contains LastModified = true ↔
            ∃ k, k ≠ LastModified ∧ storeA.contains k = true) ∧
          (storeA.contains LastModified = true → storeA.value LastModified = "t0"))) :=
  copyDataFrom_replaces CustomData.empty storeA "t0" (by decide)

/-- Claim C5 as stated fails: on the empty store `value("k")` is the empty string, yet
`set("k", "")` adds the key: `size()`, `dataSize()` and the value under `_LAST_MODIFIED`
change and three signals are emitted. -/
theorem set_noop_counterexample :
    CustomData.empty.value "k" = "" ∧
      (CustomData.empty.set "k" "" "t0").size = 2 ∧ CustomData.empty.size = 0 ∧
      (CustomData.empty.set "k" "" "t0").dataSize = 17 ∧ CustomData.empty.dataSize = 0 ∧
      (CustomData.empty.set "k" "" "t0").value LastModified = "t0" ∧
      CustomData.empty.value LastModified = "" ∧
      (CustomData.empty.set "k" "" "t0").emitted =
        [Signal.aboutToBeAdded "k", Signal.modified, Signal.added "k"] ∧
      CustomData.empty.emitted = [] := by
  decide

/-- Claim C5, amended to a key that is present: if `k` is present and `value(k) == v`, then
`set(k, v)` changes neither `size()` nor `dataSize()` nor the value under `_LAST_MODIFIED`,
and emits no signal. -/
theorem set_noop (d : CustomData) (k v now : QString)
    (hk : d.contains k = true) (hv : d.value k = v) :
    (d.set k v now).size = d.size ∧ (d.set k v now).dataSize = d.dataSize ∧
      (d.set k v now).value LastModified = d.value LastModified ∧
      (d.set k v now).contains LastModified = d.contains LastModified ∧
      (d.set k v now).emitted = d.emitted := by
  rw [set_of_same d k v now hk hv]
  exact ⟨rfl, rfl, rfl, rfl, rfl⟩

/-- Claim C5 amended, at `set("A", "1")` on `{"A": "1", "_LAST_MODIFIED": "t0"}`. -/
theorem set_noop_witness :
    (storeA.set "A" "1" "t1").size = storeA.size ∧
      (storeA.set "A" "1" "t1").dataSize = storeA.dataSize ∧
      (storeA.set "A" "1" "t1").value LastModified = storeA.value LastModified ∧
      (storeA.set "A" "1" "t1").contains LastModified = storeA.contains LastModified ∧
      (storeA.set "A" "1" "t1").emitted = storeA.emitted :=
  set_noop storeA "A" "1" "t1" (by decide) (by decide)

/-- Claim C6, the signals of `set`: `set(key, value)` emits exactly
`aboutToBeAdded(key), modified, added(key)` if the key was absent, exactly `modified` if it
was present with another value, and nothing, the map left as it was, if it was present with
this value. -/
theorem set_protocol (d : CustomData) (key value now : QString) :
    (d.contains key = false →
        (d.set key value now).emitted =
          d.emitted ++ [Signal.aboutToBeAdded key, Signal.modified, Signal.added key]) ∧
      (d.contains key = true → d.value key ≠ value →
        (d.set key value now).emitted = d.emitted ++ [Signal.modified]) ∧
      (d.contains key = true → d.value key = value →
        (d.set key value now).emitted = d.emitted ∧ (d.set key value now).m_data = d.m_data) := by
  refine ⟨?_, ?_, ?_⟩
  · intro h
    rw [set_of_absent d key value now h]
    simp
  · intro h hv
    rw [set_of_changed d key value now h hv]
    simp
  · intro h hv
    rw [set_of_same d key value now h hv]
    exact ⟨rfl, rfl⟩

/-- Claim C6 on `{"A": "1", "_LAST_MODIFIED": "t0"}`: `set("B", "2")` adds, `set("A", "2")`
changes, `set("A", "1")` does nothing. -/
theorem set_protocol_witness :
    (storeA.set "B" "2" "t1").emitted =
        storeA.emitted ++ [Signal.aboutToBeAdded "B", Signal.modified, Signal.added "B"] ∧
      (storeA.set "A" "2" "t1").emitted = storeA.emitted ++ [Signal.modified] ∧
      ((storeA.set "A" "1" "t1").emitted = storeA.emitted ∧
        (storeA.set "A" "1" "t1").m_data = storeA.m_data) :=
  ⟨(set_protocol storeA "B" "2" "t1").1 (by decide),
    (set_protocol storeA "A" "2" "t1").2.1 (by decide) (by decide),
    (set_protocol storeA "A" "1" "t1").2.2 (by decide) (by decide)⟩

/-- Claim C7, the signals of `remove`: `remove(key)` emits `aboutToBeRemoved(key)` first and
`removed(key)` last whether or not the key is present; `modified` is emitted, once and
between the two, exactly when the key was present; when it was absent the map is left as
it was. -/
theorem remove_protocol (d : CustomData) (key now : QString) :
    (d.remove key now).emitted =
        d.emitted ++
          (if d.contains key = true then
            [Signal.aboutToBeRemoved key, Signal.modified, Signal.removed key]
          else [Signal.aboutToBeRemoved key, Signal.removed key]) ∧
      (d.contains key = false → (d.remove key now).m_data = d.m_data) := by
  cases h : d.contains key
  · rw [remove_of_absent d key now h]
    simp
  · rw [remove_of_present d key now h]
    simp

/-- Claim C7 on `{"A": "1", "_LAST_MODIFIED": "t0"}`, at the absent key `"B"` and at the
present key `"A"`. -/
theorem remove_protocol_witness :
    ((storeA.remove "B" "t1").emitted =
        storeA.emitted ++ [Signal.aboutToBeRemoved "B", Signal.removed "B"] ∧
      (storeA.remove "B" "t1").m_data = storeA.m_data) ∧
      (storeA.remove "A" "t1").emitted =
        storeA.emitted ++ [Signal.aboutToBeRemoved "A", Signal.modified, Signal.removed "A"] :=
  ⟨⟨(remove_protocol storeA "B" "t1").1, (remove_protocol storeA "B" "t1").2 (by decide)⟩,
    (remove_protocol storeA "A" "t1").1⟩

/-- Claim C8, the signals of `rename`: with `oldKey` present and `newKey` absent,
`rename(oldKey, newKey)` emits exactly `aboutToRename(oldKey, newKey), modified,
renamed(oldKey, newKey)`. -/
theorem rename_protocol (d : CustomData) (oldKey newKey now : QString)
    (ho : d.contains oldKey = true) (hn : d.contains newKey = false) :
    (d.rename oldKey newKey now).emitted =
      d.emitted ++
        [Signal.aboutToRename oldKey newKey, Signal.modified, Signal.renamed oldKey newKey] := by
  rw [rename_of_accepted d oldKey newKey now ho hn]
  simp

/-- Claim C8 at `rename("A", "B")` on `{"A": "1", "_LAST_MODIFIED": "t0"}`. -/
theorem rename_protocol_witness :
    (storeA.rename "A" "B" "t1").emitted =
      storeA.emitted ++
        [Signal.aboutToRename "A" "B", Signal.modified, Signal.renamed "A" "B"] :=
  rename_protocol storeA "A" "B" "t1" (by decide) (by decide)

/-- Claim C9 as stated fails: when the clock gives `"t0"` again, `rename("A", "B")` on
`{"A": "1", "_LAST_MODIFIED": "t0"}` leaves `{"B": "1", "_LAST_MODIFIED": "t0"}`, so no
`t1` other than `t0` describes the result. -/
theorem rename_scenario_counterexample :
    (storeOf "A" "1" "t0").rename "A" "B" "t0" =
        ⟨(storeOf "B" "1" "t0").m_data,
          [Signal.aboutToRename "A" "B", Signal.modified, Signal.renamed "A" "B"]⟩ ∧
      ¬ ∃ t1, t1 ≠ "t0" ∧
        ((storeOf "A" "1" "t0").rename "A" "B" "t0").m_data = (storeOf "B" "1" t1).m_data := by
  refine ⟨by decide, ?_⟩
  rintro ⟨t1, hne, heq⟩
  have h1 : (((storeOf "A" "1" "t0").rename "A" "B" "t0").m_data).value LastModified = "t0" := by
    decide
  rw [heq] at h1
  simp only [storeOf, QHash.value_insert_self] at h1
  exact hne h1

/-- Claim C9, amended: a store holding exactly `{a: v, _LAST_MODIFIED: t0}`, with `a` and `b`
other than `_LAST_MODIFIED` and `a != b`, becomes after `rename(a, b)` exactly
`{b: v, _LAST_MODIFIED: t1}` where `t1` is the clock string of the call; `t1` differs from
`t0` exactly when the clock string does. -/
theorem rename_scenario (a b v t0 now : QString)
    (ha : a ≠ LastModified) (hb : b ≠ LastModified) (hab : a ≠ b) :
    ((storeOf a v t0).rename a b now).m_data = (storeOf b v now).m_data ∧
      (((storeOf a v t0).rename a b now).value LastModified ≠ t0 ↔ now ≠ t0) := by
  have hca : (storeOf a v t0).m_data.contains a = true := by
    simp [storeOf, QHash.contains_insert]
  have hcb : (storeOf a v t0).m_data.contains b = false := by
    simp only [storeOf, QHash.contains_insert]
    simp [hb, Ne.symm hab, QHash.contains, Finmap.not_mem_empty]
  have hva : (storeOf a v t0).value a = v := by
    simp [storeOf, value, QHash.value_insert_of_ne _ _ _ _ ha, QHash.value_insert_self]
  have hm : ((storeOf a v t0).rename a b now).m_data = (storeOf b v now).m_data := by
    rw [rename_of_accepted _ a b now hca hcb, hva]
    simp only [emit_m_data, emitModified_m_data]
    rw [updateLastModified_m_data]
    have hnal : ¬ ((((storeOf a v t0).m_data.remove a).insert b v).isEmpty ||
        ((((storeOf a v t0).m_data.remove a).insert b v).size == 1 &&
          (((storeOf a v t0).m_data.remove a).insert b v).contains LastModified)) = true := by
      intro hh
      have := (QHash.alone_iff _ LastModified).mp hh b (by simp [QHash.contains_insert])
      exact hb this
    dsimp only [emit_m_data]
    rw [if_neg hnal]
    apply Finmap.ext_lookup
    intro x
    simp only [storeOf, QHash.insert, QHash.remove]
    by_cases hxs : x = LastModified
    · subst hxs
      simp [Finmap.lookup_insert]
    · rw [Finmap.lookup_insert_of_ne _ hxs, Finmap.lookup_insert_of_ne _ hxs]
      by_cases hxb : x = b
      · subst hxb
        simp [Finmap.lookup_insert]
      · rw [Finmap.lookup_insert_of_ne _ hxb, Finmap.lookup_insert_of_ne _ hxb]
        by_cases hxa : x = a
        · subst hxa
          simp [Finmap.lookup_erase, Finmap.lookup_empty]
        · rw [Finmap.lookup_erase_ne hxa, Finmap.lookup_insert_of_ne _ hxs,
            Finmap.lookup_insert_of_ne _ hxa]
  refine ⟨hm, ?_⟩
  rw [value, hm]
  simp only [storeOf, QHash.value_insert_self]

/-- Claim C9 amended, at `rename("A", "B")` on `{"A": "1", "_LAST_MODIFIED": "t0"}` with the
clock at `"t1"`. -/
theorem rename_scenario_witness :
    ((storeOf "A" "1" "t0").rename "A" "B" "t1").m_data = (storeOf "B" "1" "t1").m_data ∧
      (((storeOf "A" "1" "t0").rename "A" "B" "t1").value LastModified ≠ "t0" ↔ "t1" ≠ "t0") :=
  rename_scenario "A" "B" "1" "t0" "t1" (by decide) (by decide) (by decide)

/-- Claim C10, the last-modified maintenance rule: after a `set` that adds a key or changes a
value, a `remove` of a present key, a `rename` with the old key present and the new one
absent, or a `copyDataFrom` from a store that is not content-equal, the rule holds of the
map left by the operation's own change: if that map is empty or contains only
`_LAST_MODIFIED`, the result has no `_LAST_MODIFIED` and is empty, otherwise
`_LAST_MODIFIED` is present with the clock string of the call as its value. -/
theorem lastModified_rule (d other : CustomData) (key value oldKey newKey now : QString) :
    ((d.contains key = false ∨ d.value key ≠ value) →
        LastModifiedRule (d.m_data.insert key value) now (d.set key value now)) ∧
      (d.contains key = true →
        LastModifiedRule (d.m_data.remove key) now (d.remove key now)) ∧
      (d.contains oldKey = true → d.contains newKey = false →
        LastModifiedRule ((d.m_data.remove oldKey).insert newKey (d.value oldKey)) now
          (d.rename oldKey newKey now)) ∧
      (d.operatorEq other = false →
        LastModifiedRule other.m_data now (d.copyDataFrom other now)) := by
  refine ⟨?_, ?_, ?_, ?_⟩
  · intro h
    cases hc : d.m_data.contains key
    · rw [set_of_absent d key value now hc]
      exact lastModifiedRule_of_updateLastModified
        { d.emit (Signal.aboutToBeAdded key) with m_data := d.m_data.insert key value } _ now rfl
    · have hv : d.m_data.value key ≠ value := by
        rcases h with h | h
        · rw [contains, hc] at h
          exact Bool.noConfusion h
        · exact h
      rw [set_of_changed d key value now hc hv]
      exact lastModifiedRule_of_updateLastModified
        { d with m_data := d.m_data.insert key value } _ now rfl
  · intro h
    rw [remove_of_present d key now h]
    exact lastModifiedRule_of_updateLastModified
      { d.emit (Signal.aboutToBeRemoved key) with m_data := d.m_data.remove key } _ now rfl
  · intro ho hn
    rw [rename_of_accepted d oldKey newKey now ho hn]
    exact lastModifiedRule_of_updateLastModified
      { d.emit (Signal.aboutToRename oldKey newKey) with
        m_data := (d.m_data.remove oldKey).insert newKey (d.value oldKey) } _ now rfl
  · intro h
    rw [copyDataFrom_of_unequal d other now h]
    exact lastModifiedRule_of_updateLastModified
      { d.emit Signal.aboutToBeReset with m_data := other.m_data } _ now rfl

/-- Claim C10 on `{"A": "1", "_LAST_MODIFIED": "t0"}`, once for each of the four
operations. -/
theorem lastModified_rule_witness :
    LastModifiedRule (storeA.m_data.insert "B" "2") "t1" (storeA.set "B" "2" "t1") ∧
      LastModifiedRule (storeA.m_data.remove "A") "t1" (storeA.remove "A" "t1") ∧
      LastModifiedRule ((storeA.m_data.remove "A").insert "B" (storeA.value "A")) "t1"
        (storeA.rename "A" "B" "t1") ∧
      LastModifiedRule storeA.m_data "t1" (CustomData.empty.copyDataFrom storeA "t1") :=
  ⟨(lastModified_rule storeA storeA "B" "2" "A" "B" "t1").1 (Or.inl (by decide)),
    (lastModified_rule storeA storeA "A" "2" "A" "B" "t1").2.1 (by decide),
    (lastModified_rule storeA storeA "A" "2" "A" "B" "t1").2.2.1 (by decide) (by decide),
    (lastModified_rule CustomData.empty storeA "A" "2" "A" "B" "t1").2.2.2 (by decide)⟩

end CustomData

/-! ## Sums over the entries -/

namespace QHash

/-- Every map is built from the empty one by inserting keys that are not yet there. -/
theorem induction_insert {P : QHash → Prop} (h0 : P ∅)
    (hi : ∀ (a b : QString) (m : QHash), m.contains a = false → P m → P (m.insert a b))
    (m : QHash) : P m := by
  refine Finmap.induction_on m ?_
  intro s
  refine AList.insertRec ?_ ?_ s
  · exact h0
  · intro a b l hl ih
    rw [← Finmap.insert_toFinmap]
    refine hi a b (AList.toFinmap l) ?_ ih
    rw [contains_eq_false_iff]
    exact fun h => hl (Finmap.mem_toFinmap.mp h)

/-- A sum over the entries is the sum over the keys, each with the value `value` gives. -/
theorem sum_entries (f : QString → QString → Nat) (m : QHash) :
    (m.entries.map (fun e => f e.1 e.2)).sum = Finset.sum m.keys (fun k => f k (m.value k)) := by
  induction m using induction_insert with
  | h0 => rfl
  | hi a b m ha ih =>
    have ha2 : a ∉ m := (contains_eq_false_iff m a).mp ha
    have ha3 : a ∉ m.keys := fun h => ha2 (Finmap.mem_keys.mp h)
    rw [keys_insert, Finset.sum_insert ha3, value_insert_self]
    have he : (m.insert a b).entries = (⟨a, b⟩ : Sigma (fun _ : QString => QString)) ::ₘ m.entries :=
      Finmap.insert_entries_of_neg ha2
    rw [he, Multiset.map_cons, Multiset.sum_cons, ih]
    congr 1
    apply Finset.sum_congr rfl
    intro k hk
    have hka : k ≠ a := fun h => ha3 (h ▸ hk)
    rw [value_insert_of_ne m a b k hka]

end QHash

/-! ## The claims, continued -/

namespace CustomData

/-- Inside the range of `int` nothing wraps. -/
theorem wrapInt32_of_range (x : Int) (h0 : -2147483648 ≤ x) (h1 : x ≤ 2147483647) :
    wrapInt32 x = x := by
  unfold wrapInt32
  omega

/-- The loop of `dataSize`, started at `acc`, ends at the wrapped total. -/
theorem foldl_dataSizeStep
    (H : ∀ (size : Int) (k1 v1 k2 v2 : QString),
      dataSizeStep (dataSizeStep size k1 v1) k2 v2 = dataSizeStep (dataSizeStep size k2 v2) k1 v1)
    (m : QHash) :
    ∀ acc : Int, wrapInt32 acc = acc →
      Finmap.foldl dataSizeStep H acc m =
        wrapInt32 (acc +
          (((m.entries.map (fun e => e.1.utf8ByteSize + e.2.utf8ByteSize)).sum : Nat) : Int)) := by
  induction m using QHash.induction_insert with
  | h0 =>
    intro acc hacc
    have h1 : Finmap.foldl dataSizeStep H acc (∅ : QHash) = acc := rfl
    have h2 : ((∅ : QHash).entries.map (fun e => e.1.utf8ByteSize + e.2.utf8ByteSize)).sum = 0 :=
      rfl
    rw [h1, h2, Nat.cast_zero, add_zero, hacc]
  | hi a b m ha ih =>
    intro acc _
    have ha2 : a ∉ m := (QHash.contains_eq_false_iff m a).mp ha
    have he : (m.insert a b).entries =
        (⟨a, b⟩ : Sigma (fun _ : QString => QString)) ::ₘ m.entries :=
      Finmap.insert_entries_of_neg ha2
    have hstep : Finmap.foldl dataSizeStep H acc (m.insert a b) =
        Finmap.foldl dataSizeStep H (dataSizeStep acc a b) m := by
      unfold Finmap.foldl
      rw [he, Multiset.foldl_cons]
    have hin : wrapInt32 (dataSizeStep acc a b) = dataSizeStep acc a b := by
      unfold dataSizeStep wrapInt32
      omega
    rw [hstep, ih (dataSizeStep acc a b) hin, he, Multiset.map_cons, Multiset.sum_cons]
    unfold dataSizeStep wrapInt32
    push_cast
    omega

/-- What `dataSize()` returns is the sum of the UTF-8 byte lengths of all keys and values,
wrapped to an `int`. -/
theorem dataSize_eq_wrap (d : CustomData) :
    d.dataSize =
      wrapInt32
        ((Finset.sum d.keys (fun k => k.toUTF8.size + (d.value k).toUTF8.size) : Nat) : Int) := by
  unfold dataSize
  rw [foldl_dataSizeStep _ d.m_data 0 (by decide), zero_add,
    QHash.sum_entries (fun k v => k.utf8ByteSize + v.utf8ByteSize) d.m_data]
  simp only [String.size_toUTF8, keys, value]

/-- A string of `n` letters `x` has `n` bytes. -/
theorem utf8ByteSize_xs (n : Nat) : (xs n).utf8ByteSize = n := by
  unfold xs
  induction n with
  | zero => rfl
  | succ n ih =>
    rw [List.replicate_succ]
    show String.utf8ByteSize.go (List.replicate n 'x') + Char.utf8Size 'x' = n + 1
    have h1 : String.utf8ByteSize.go (List.replicate n 'x') = n := ih
    have h2 : Char.utf8Size 'x' = 1 := by decide
    rw [h1, h2]

/-- The keys of `bigStore`. -/
theorem keys_bigStore (v : QString) : (bigStore v).keys = {LastModified, "c", "b", "a"} := by
  simp only [keys, bigStore, QHash.keys_insert, Finmap.keys_empty]
  rfl

/-- The values of `bigStore`. -/
theorem value_bigStore (v : QString) :
    (bigStore v).value LastModified = "t0" ∧ (bigStore v).value "c" = v ∧
      (bigStore v).value "b" = v ∧ (bigStore v).value "a" = v := by
  refine ⟨?_, ?_, ?_, ?_⟩
  · simp only [value, bigStore, QHash.value_insert_self]
  · simp only [value, bigStore]
    rw [QHash.value_insert_of_ne _ _ _ _ (by decide), QHash.value_insert_self]
  · simp only [value, bigStore]
    rw [QHash.value_insert_of_ne _ _ _ _ (by decide),
      QHash.value_insert_of_ne _ _ _ _ (by decide), QHash.value_insert_self]
  · simp only [value, bigStore]
    rw [QHash.value_insert_of_ne _ _ _ _ (by decide),
      QHash.value_insert_of_ne _ _ _ _ (by decide),
      QHash.value_insert_of_ne _ _ _ _ (by decide), QHash.value_insert_self]

/-- The byte lengths of the short strings of `bigStore`. -/
theorem utf8ByteSize_short :
    LastModified.utf8ByteSize = 14 ∧ ("t0" : QString).utf8ByteSize = 2 ∧
      ("a" : QString).utf8ByteSize = 1 ∧ ("b" : QString).utf8ByteSize = 1 ∧
      ("c" : QString).utf8ByteSize = 1 := by
  decide

/-- The byte total of `bigStore v`: 19 bytes and three times those of `v`. -/
theorem sum_bigStore (v : QString) :
    Finset.sum (bigStore v).keys
        (fun k => k.toUTF8.size + ((bigStore v).value k).toUTF8.size) =
      3 * v.utf8ByteSize + 19 := by
  rw [keys_bigStore, Finset.sum_insert (by decide), Finset.sum_insert (by decide),
    Finset.sum_insert (by decide), Finset.sum_singleton, (value_bigStore v).1,
    (value_bigStore v).2.1, (value_bigStore v).2.2.1, (value_bigStore v).2.2.2]
  simp only [String.size_toUTF8]
  rw [utf8ByteSize_short.1, utf8ByteSize_short.2.1, utf8ByteSize_short.2.2.1,
    utf8ByteSize_short.2.2.2.1, utf8ByteSize_short.2.2.2.2]
  omega

/-- The byte total of `bigStore` with a value of 800,000,000 letters. -/
theorem sum_bigStore_xs :
    Finset.sum (bigStore (xs 800000000)).keys
        (fun k => k.toUTF8.size + ((bigStore (xs 800000000)).value k).toUTF8.size) =
      2400000019 :=
  (sum_bigStore (xs 800000000)).trans
    ((congrArg (fun n => 3 * n + 19) (utf8ByteSize_xs 800000000)).trans (by decide))

/-- What `dataSize()` returns for `bigStore` with a value of 800,000,000 letters. -/
theorem dataSize_bigStore_xs : (bigStore (xs 800000000)).dataSize = -1894967277 :=
  (dataSize_eq_wrap (bigStore (xs 800000000))).trans
    ((congrArg (fun n : Nat => wrapInt32 (n : Int)) sum_bigStore_xs).trans (by decide))

/-- Claim C11 as stated fails: the store with the keys `"a"`, `"b"`, `"c"`, each holding
800,000,000 letters, and `_LAST_MODIFIED` holding `"t0"`, has 2,400,000,019 bytes of UTF-8
in its keys and values, and `dataSize()`, accumulating in an `int`, returns
-1,894,967,277. -/
theorem dataSize_additive_counterexample :
    Finset.sum (bigStore (xs 800000000)).keys
        (fun k => k.toUTF8.size + ((bigStore (xs 800000000)).value k).toUTF8.size) =
        2400000019 ∧
      (bigStore (xs 800000000)).dataSize = -1894967277 ∧
      (bigStore (xs 800000000)).dataSize ≠
        ((Finset.sum (bigStore (xs 800000000)).keys
          (fun k => k.toUTF8.size + ((bigStore (xs 800000000)).value k).toUTF8.size) : Nat) :
            Int) :=
  ⟨sum_bigStore_xs, dataSize_bigStore_xs, fun h =>
    absurd ((dataSize_bigStore_xs.symm.trans h).trans
      (congrArg (fun n : Nat => (n : Int)) sum_bigStore_xs)) (by decide)⟩

/-- Claim C11, amended by a bound: for every store whose keys and values (the
`_LAST_MODIFIED` entry included) have at most 2^31 - 1 bytes of UTF-8 in total, `dataSize()`
is that total, the sum over all keys of the byte length of the key plus that of its value;
it is 0 for the empty store; and it counts bytes, not characters: the store
`{"é": "日本", "_LAST_MODIFIED": "t0"}` has data size (2 + 6) + (14 + 2) although its first
key is one character and its value two. -/
theorem dataSize_additive (d : CustomData) :
    (Finset.sum d.keys (fun k => k.toUTF8.size + (d.value k).toUTF8.size) ≤ 2147483647 →
        d.dataSize =
          ((Finset.sum d.keys (fun k => k.toUTF8.size + (d.value k).toUTF8.size) : Nat) : Int)) ∧
      CustomData.empty.dataSize = 0 ∧
      ((storeOf "é" "日本" "t0").dataSize = (2 + 6) + (14 + 2) ∧
        "é".length = 1 ∧ "日本".length = 2) := by
  refine ⟨?_, by decide, by decide⟩
  intro h
  rw [dataSize_eq_wrap]
  apply wrapInt32_of_range
  · omega
  · exact_mod_cast h

/-- Claim C11 amended, on `{"A": "1", "_LAST_MODIFIED": "t0"}`, 18 bytes in all. -/
theorem dataSize_additive_witness :
    Finset.sum storeA.keys (fun k => k.toUTF8.size + (storeA.value k).toUTF8.size) ≤
        2147483647 ∧
      storeA.dataSize =
        ((Finset.sum storeA.keys
          (fun k => k.toUTF8.size + (storeA.value k).toUTF8.size) : Nat) : Int) ∧
      storeA.dataSize = 18 :=
  ⟨by simp only [String.size_toUTF8]; decide,
    (dataSize_additive storeA).1 (by simp only [String.size_toUTF8]; decide), by decide⟩

/-- Claim C12, the protocol of `copyDataFrom`: if `other` is content-equal to the store,
`copyDataFrom(other)` leaves the map as it was and emits nothing; otherwise it emits exactly
`aboutToBeReset, reset, modified`, and every key other than `_LAST_MODIFIED` has in the
result the presence and the value it has in `other`. -/
theorem copyDataFrom_protocol (d other : CustomData) (now : QString) :
    (d.operatorEq other = true →
        (d.copyDataFrom other now).m_data = d.m_data ∧
          (d.copyDataFrom other now).emitted = d.emitted) ∧
      (d.operatorEq other = false →
        (d.copyDataFrom other now).emitted =
            d.emitted ++ [Signal.aboutToBeReset, Signal.reset, Signal.modified] ∧
          ∀ k, k ≠ LastModified →
            (d.copyDataFrom other now).contains k = other.contains k ∧
              (d.copyDataFrom other now).value k = other.value k) := by
  constructor
  · intro h
    rw [copyDataFrom_of_equal d other now h]
    exact ⟨rfl, rfl⟩
  · intro h
    rw [copyDataFrom_of_unequal d other now h]
    refine ⟨by simp, ?_⟩
    intro k hk
    simp only [contains, value, emit_m_data, emitModified_m_data]
    exact ⟨updateLastModified_contains_of_ne _ _ _ hk, updateLastModified_value_of_ne _ _ _ hk⟩

/-- Claim C12 on `{"A": "1", "_LAST_MODIFIED": "t0"}`: copying a store with the same content,
and copying the empty store. -/
theorem copyDataFrom_protocol_witness :
    ((storeA.copyDataFrom (storeOf "A" "1" "t0") "t1").m_data = storeA.m_data ∧
        (storeA.copyDataFrom (storeOf "A" "1" "t0") "t1").emitted = storeA.emitted) ∧
      ((storeA.copyDataFrom CustomData.empty "t1").emitted =
          storeA.emitted ++ [Signal.aboutToBeReset, Signal.reset, Signal.modified] ∧
        ∀ k, k ≠ LastModified →
          (storeA.copyDataFrom CustomData.empty "t1").contains k = CustomData.empty.contains k ∧
            (storeA.copyDataFrom CustomData.empty "t1").value k = CustomData.empty.value k) :=
  ⟨(copyDataFrom_protocol storeA (storeOf "A" "1" "t0") "t1").1 (by decide),
    (copyDataFrom_protocol storeA CustomData.empty "t1").2 (by decide)⟩

/-- Claim C13, `clear`: after `clear()` the store has no entries (`isEmpty()` is true,
`size()` is 0, no key is present, `_LAST_MODIFIED` neither) and the signals emitted are
exactly `aboutToBeReset, reset, modified`, whether or not the store was empty before. -/
theorem clear_protocol (d : CustomData) :
    d.clear.isEmpty = true ∧ d.clear.size = 0 ∧ d.clear.contains LastModified = false ∧
      (∀ k, d.clear.contains k = false) ∧
      d.clear.emitted = d.emitted ++ [Signal.aboutToBeReset, Signal.reset, Signal.modified] := by
  have hm : d.clear.m_data = ∅ := rfl
  have hall : ∀ k, d.clear.contains k = false := by
    intro k
    rw [contains, hm, QHash.contains_eq_false_iff]
    exact Finmap.not_mem_empty
  refine ⟨?_, ?_, hall LastModified, hall, ?_⟩
  · rw [isEmpty, hm]
    rfl
  · rw [size, hm]
    rfl
  · simp [clear, emitModified]

/-- A call that leaves the object as it was fires nothing. -/
theorem modifiedOnChange_refl (d : CustomData) : ModifiedOnChange d d :=
  ⟨Or.inl rfl, fun h => absurd rfl h⟩

/-- A call whose signals hold `modified` once fires it once. -/
theorem modifiedOnChange_of_count (d r : CustomData)
    (h : modifiedCount r.emitted = modifiedCount d.emitted + 1) : ModifiedOnChange d r :=
  ⟨Or.inr h, fun _ => h⟩

/-- How often `set` fires `modified`: once when the key was absent or held another value. -/
theorem modifiedCount_set (d : CustomData) (key value now : QString) :
    modifiedCount (d.set key value now).emitted =
      modifiedCount d.emitted +
        (if d.contains key = false ∨ d.value key ≠ value then 1 else 0) := by
  unfold contains CustomData.value
  cases hc : d.m_data.contains key
  · rw [set_of_absent d key value now hc]
    simp [modifiedCount, List.count_cons]
  · by_cases hv : d.m_data.value key = value
    · rw [set_of_same d key value now hc hv]
      simp [hv]
    · rw [set_of_changed d key value now hc hv]
      simp [modifiedCount, List.count_cons, hv]

/-- How often `remove` fires `modified`: once when the key was present. -/
theorem modifiedCount_remove (d : CustomData) (key now : QString) :
    modifiedCount (d.remove key now).emitted =
      modifiedCount d.emitted + (if d.contains key = true then 1 else 0) := by
  unfold contains
  cases hc : d.m_data.contains key
  · rw [remove_of_absent d key now hc]
    simp [modifiedCount, List.count_cons]
  · rw [remove_of_present d key now hc]
    simp [modifiedCount, List.count_cons]

/-- How often `rename` fires `modified`: once when the old key was present and the new one
absent. -/
theorem modifiedCount_rename (d : CustomData) (oldKey newKey now : QString) :
    modifiedCount (d.rename oldKey newKey now).emitted =
      modifiedCount d.emitted +
        (if d.contains oldKey = true ∧ d.contains newKey = false then 1 else 0) := by
  unfold contains
  cases ho : d.m_data.contains oldKey
  · rw [rename_of_rejected d oldKey newKey now (Or.inl ho)]
    simp
  · cases hn : d.m_data.contains newKey
    · rw [rename_of_accepted d oldKey newKey now ho hn]
      simp [modifiedCount, List.count_cons]
    · rw [rename_of_rejected d oldKey newKey now (Or.inr hn)]
      simp

/-- How often `copyDataFrom` fires `modified`: once when the stores were not content-equal. -/
theorem modifiedCount_copyDataFrom (d other : CustomData) (now : QString) :
    modifiedCount (d.copyDataFrom other now).emitted =
      modifiedCount d.emitted + (if d.operatorEq other = false then 1 else 0) := by
  cases hc : d.operatorEq other
  · rw [copyDataFrom_of_unequal d other now hc]
    simp [modifiedCount, List.count_cons]
  · rw [copyDataFrom_of_equal d other now hc]
    simp

/-- How often `clear` fires `modified`: once. -/
theorem modifiedCount_clear (d : CustomData) :
    modifiedCount d.clear.emitted = modifiedCount d.emitted + 1 := by
  simp [clear, emitModified, modifiedCount, List.count_cons]

/-- An accepted `rename` changes the map. -/
theorem rename_changes (d : CustomData) (oldKey newKey now : QString)
    (ho : d.m_data.contains oldKey = true) (hn : d.m_data.contains newKey = false) :
    (d.rename oldKey newKey now).m_data ≠ d.m_data := by
  have hon : oldKey ≠ newKey := by
    rintro rfl
    rw [ho] at hn
    exact Bool.noConfusion hn
  rw [rename_of_accepted d oldKey newKey now ho hn]
  simp only [emit_m_data, emitModified_m_data]
  intro heq
  by_cases hS : oldKey = LastModified
  · have hnS : newKey ≠ LastModified := fun h => hon (hS.trans h.symm)
    have h1 := updateLastModified_contains_of_ne
      ({ d.emit (Signal.aboutToRename oldKey newKey) with
        m_data := (d.m_data.remove oldKey).insert newKey (d.value oldKey) }) now newKey hnS
    rw [heq, hn] at h1
    simp [QHash.contains_insert] at h1
  · have h1 := updateLastModified_contains_of_ne
      ({ d.emit (Signal.aboutToRename oldKey newKey) with
        m_data := (d.m_data.remove oldKey).insert newKey (d.value oldKey) }) now oldKey hS
    rw [heq, ho] at h1
    simp [QHash.contains_insert, QHash.contains_remove, hon] at h1

/-- A `set` that adds or changes a key other than the sentinel changes the map. -/
theorem set_changes (d : CustomData) (key value now : QString) (hk : key ≠ LastModified)
    (h : d.m_data.contains key = false ∨ d.m_data.value key ≠ value) :
    (d.set key value now).m_data ≠ d.m_data := by
  intro heq
  have hr : (d.set key value now).m_data.contains key = true ∧
      (d.set key value now).m_data.value key = value := by
    cases hc : d.m_data.contains key
    · rw [set_of_absent d key value now hc]
      simp only [emit_m_data, emitModified_m_data]
      rw [updateLastModified_contains_of_ne _ _ _ hk, updateLastModified_value_of_ne _ _ _ hk]
      exact ⟨by simp [QHash.contains_insert], QHash.value_insert_self _ _ _⟩
    · have hv : d.m_data.value key ≠ value := by
        rcases h with h | h
        · rw [hc] at h
          exact Bool.noConfusion h
        · exact h
      rw [set_of_changed d key value now hc hv]
      simp only [emitModified_m_data]
      rw [updateLastModified_contains_of_ne _ _ _ hk, updateLastModified_value_of_ne _ _ _ hk]
      exact ⟨by simp [QHash.contains_insert], QHash.value_insert_self _ _ _⟩
  rw [heq] at hr
  rcases h with h | h
  · rw [h] at hr
    exact Bool.noConfusion hr.1
  · exact h hr.2

/-- A `remove` of a present key other than the sentinel changes the map. -/
theorem remove_changes (d : CustomData) (key now : QString) (hk : key ≠ LastModified)
    (h : d.m_data.contains key = true) : (d.remove key now).m_data ≠ d.m_data := by
  intro heq
  have hr : (d.remove key now).m_data.contains key = false := by
    rw [remove_of_present d key now h]
    simp only [emit_m_data, emitModified_m_data]
    rw [updateLastModified_contains_of_ne _ _ _ hk]
    simp [QHash.contains_remove]
  rw [heq, h] at hr
  exact Bool.noConfusion hr

/-- A `copyDataFrom` from a store that differs on a key other than the sentinel changes the
map. -/
theorem copyDataFrom_changes (d other : CustomData) (now k : QString) (hk : k ≠ LastModified)
    (h : d.m_data.contains k ≠ other.m_data.contains k ∨
      d.m_data.value k ≠ other.m_data.value k) :
    d.operatorEq other = false ∧ (d.copyDataFrom other now).m_data ≠ d.m_data := by
  have hne : d.operatorEq other = false := by
    cases hc : d.operatorEq other
    · rfl
    · have hm : d.m_data = other.m_data := by simpa [operatorEq] using hc
      rw [hm] at h
      rcases h with h | h <;> exact absurd rfl h
  refine ⟨hne, ?_⟩
  intro heq
  rw [copyDataFrom_of_unequal d other now hne] at heq
  simp only [emit_m_data, emitModified_m_data] at heq
  have h1 := updateLastModified_contains_of_ne
    ({ d.emit Signal.aboutToBeReset with m_data := other.m_data }) now k hk
  have h2 := updateLastModified_value_of_ne
    ({ d.emit Signal.aboutToBeReset with m_data := other.m_data }) now k hk
  rw [heq] at h1 h2
  rcases h with h | h
  · exact h h1
  · exact h h2

/-- The map is the empty one exactly when `isEmpty` says so. -/
theorem m_data_eq_empty_iff (d : CustomData) : d.m_data = ∅ ↔ d.isEmpty = true := by
  rw [isEmpty, QHash.isEmpty_eq_true_iff]
  constructor
  · intro h k
    rw [h, QHash.contains_eq_false_iff]
    exact Finmap.not_mem_empty
  · intro h
    apply Finmap.ext_lookup
    intro k
    rw [Finmap.lookup_empty, Finmap.lookup_eq_none]
    exact (QHash.contains_eq_false_iff _ _).mp (h k)

/-- Claim C14 as stated fails: `clear()` on the empty store leaves the map as it was, empty,
and yet fires `modified` once. -/
theorem modified_coalesced_counterexample :
    CustomData.empty.clear.m_data = CustomData.empty.m_data ∧
      modifiedCount CustomData.empty.emitted = 0 ∧
      modifiedCount CustomData.empty.clear.emitted = 1 := by
  decide

/-- Claim C14, amended: every single call of `set`, `remove`, `rename`, `copyDataFrom` or
`clear` fires `modified` at most once, and once whenever the map after the call differs from
the map before it. It is fired exactly when the call takes its mutating path: by `set` when
the key was absent or held another value, by `remove` when the key was present, by `rename`
when the old key was present and the new one absent, by `copyDataFrom` when the stores were
not content-equal, by `clear` always. That is exactly when the map has changed for `rename`,
and for `set` and `remove` of a key other than `_LAST_MODIFIED`; a `copyDataFrom` from a
store that differs on a key other than `_LAST_MODIFIED` changes the map, and `clear` changes
it exactly when the store was not empty. -/
theorem modified_coalesced (d other : CustomData) (key value oldKey newKey now : QString) :
    (ModifiedOnChange d (d.set key value now) ∧ ModifiedOnChange d (d.remove key now) ∧
        ModifiedOnChange d (d.rename oldKey newKey now) ∧
        ModifiedOnChange d (d.copyDataFrom other now) ∧ ModifiedOnChange d d.clear) ∧
      ((FiredModified d (d.set key value now) ↔
          (d.contains key = false ∨ d.value key ≠ value)) ∧
        (FiredModified d (d.remove key now) ↔ d.contains key = true) ∧
        (FiredModified d (d.rename oldKey newKey now) ↔
          (d.contains oldKey = true ∧ d.contains newKey = false)) ∧
        (FiredModified d (d.copyDataFrom other now) ↔ d.operatorEq other = false) ∧
        FiredModified d d.clear) ∧
      ((FiredModified d (d.rename oldKey newKey now) ↔
          (d.rename oldKey newKey now).m_data ≠ d.m_data) ∧
        (key ≠ LastModified →
          (FiredModified d (d.set key value now) ↔ (d.set key value now).m_data ≠ d.m_data)) ∧
        (key ≠ LastModified →
          (FiredModified d (d.remove key now) ↔ (d.remove key now).m_data ≠ d.m_data)) ∧
        (key ≠ LastModified →
          (d.contains key ≠ other.contains key ∨ d.value key ≠ other.value key) →
          FiredModified d (d.copyDataFrom other now) ∧
            (d.copyDataFrom other now).m_data ≠ d.m_data) ∧
        (d.clear.m_data ≠ d.m_data ↔ d.isEmpty = false)) := by
  have hset : FiredModified d (d.set key value now) ↔
      (d.contains key = false ∨ d.value key ≠ value) := by
    unfold FiredModified
    rw [modifiedCount_set]
    split <;> simp_all
  have hrem : FiredModified d (d.remove key now) ↔ d.contains key = true := by
    unfold FiredModified
    rw [modifiedCount_remove]
    split <;> simp_all
  have hren : FiredModified d (d.rename oldKey newKey now) ↔
      (d.contains oldKey = true ∧ d.contains newKey = false) := by
    unfold FiredModified
    rw [modifiedCount_rename]
    split <;> simp_all
  have hcop : FiredModified d (d.copyDataFrom other now) ↔ d.operatorEq other = false := by
    unfold FiredModified
    rw [modifiedCount_copyDataFrom]
    split <;> simp_all
  have hsetU : ¬ (d.contains key = false ∨ d.value key ≠ value) →
      (d.set key value now).m_data = d.m_data := by
    intro h
    have hc : d.m_data.contains key = true := by
      cases hc : d.m_data.contains key
      · exact absurd (Or.inl hc) h
      · rfl
    have hv : d.m_data.value key = value := by
      by_contra hv
      exact h (Or.inr hv)
    rw [set_of_same d key value now hc hv]
  have hremU : ¬ d.contains key = true → (d.remove key now).m_data = d.m_data := by
    intro h
    have hc : d.m_data.contains key = false := by
      cases hc : d.m_data.contains key
      · rfl
      · exact absurd hc h
    rw [remove_of_absent d key now hc]
    rfl
  have hrenU : ¬ (d.contains oldKey = true ∧ d.contains newKey = false) →
      (d.rename oldKey newKey now).m_data = d.m_data := by
    intro h
    have hr : d.m_data.contains oldKey = false ∨ d.m_data.contains newKey = true := by
      cases ho : d.m_data.contains oldKey
      · exact Or.inl rfl
      · cases hn : d.m_data.contains newKey
        · exact absurd ⟨ho, hn⟩ h
        · exact Or.inr rfl
    rw [rename_of_rejected d oldKey newKey now hr]
  have hcopU : ¬ d.operatorEq other = false → (d.copyDataFrom other now).m_data = d.m_data := by
    intro h
    have hc : d.operatorEq other = true := by
      cases hc : d.operatorEq other
      · exact absurd hc h
      · rfl
    rw [copyDataFrom_of_equal d other now hc]
  have once : ∀ r : CustomData,
      (FiredModified d r ∨ modifiedCount r.emitted = modifiedCount d.emitted) →
      (¬ FiredModified d r → r.m_data = d.m_data) → ModifiedOnChange d r := by
    intro r h1 h2
    refine ⟨h1.symm.imp id id, fun hne => ?_⟩
    by_contra hf
    exact hne (h2 hf)
  refine ⟨⟨?_, ?_, ?_, ?_, ?_⟩, ⟨hset, hrem, hren, hcop, modifiedCount_clear d⟩,
    ?_, ?_, ?_, ?_, ?_⟩
  · refine once _ ?_ (fun hf => hsetU (fun h => hf (hset.mpr h)))
    unfold FiredModified
    rw [modifiedCount_set]
    split <;> simp
  · refine once _ ?_ (fun hf => hremU (fun h => hf (hrem.mpr h)))
    unfold FiredModified
    rw [modifiedCount_remove]
    split <;> simp
  · refine once _ ?_ (fun hf => hrenU (fun h => hf (hren.mpr h)))
    unfold FiredModified
    rw [modifiedCount_rename]
    split <;> simp
  · refine once _ ?_ (fun hf => hcopU (fun h => hf (hcop.mpr h)))
    unfold FiredModified
    rw [modifiedCount_copyDataFrom]
    split <;> simp
  · exact modifiedOnChange_of_count _ _ (modifiedCount_clear d)
  · rw [hren]
    constructor
    · rintro ⟨ho, hn⟩
      exact rename_changes d oldKey newKey now ho hn
    · intro hne
      by_contra h
      exact hne (hrenU h)
  · intro hk
    rw [hset]
    constructor
    · intro h
      exact set_changes d key value now hk h
    · intro hne
      by_contra h
      exact hne (hsetU h)
  · intro hk
    rw [hrem]
    constructor
    · intro h
      exact remove_changes d key now hk h
    · intro hne
      by_contra h
      exact hne (hremU h)
  · intro hk h
    have hc := copyDataFrom_changes d other now key hk h
    exact ⟨hcop.mpr hc.1, hc.2⟩
  · have hm : d.clear.m_data = ∅ := rfl
    rw [hm]
    constructor
    · intro hne
      cases he : d.isEmpty
      · rfl
      · exact absurd ((m_data_eq_empty_iff d).mpr he).symm hne
    · intro he heq
      rw [(m_data_eq_empty_iff d).mp heq.symm] at he
      exact Bool.noConfusion he

/-- Claim C14 amended, on `{"A": "1", "_LAST_MODIFIED": "t0"}`: `set("A", "2")` changes the
map and has fired `modified` once; `set("A", "1")` and `rename("B", "C")` change nothing and
have not fired it; `clear()` has fired it and changed the map. -/
theorem modified_coalesced_witness :
    ((storeA.set "A" "2" "t1").m_data ≠ storeA.m_data ∧
        FiredModified storeA (storeA.set "A" "2" "t1")) ∧
      ((storeA.set "A" "1" "t1").m_data = storeA.m_data ∧
        ¬ FiredModified storeA (storeA.set "A" "1" "t1")) ∧
      ((storeA.rename "B" "C" "t1").m_data = storeA.m_data ∧
        ¬ FiredModified storeA (storeA.rename "B" "C" "t1")) ∧
      (storeA.clear.m_data ≠ storeA.m_data ∧ FiredModified storeA storeA.clear) :=
  ⟨⟨by decide,
      ((modified_coalesced storeA storeA "A" "2" "B" "C" "t1").2.2.2.1 (by decide)).mpr
        (by decide)⟩,
    ⟨by decide, fun h =>
      absurd ((modified_coalesced storeA storeA "A" "1" "B" "C" "t1").2.1.1.mp h) (by decide)⟩,
    ⟨by decide, fun h =>
      absurd ((modified_coalesced storeA storeA "A" "1" "B" "C" "t1").2.2.1.mp h) (by decide)⟩,
    ⟨(modified_coalesced storeA storeA "A" "1" "B" "C" "t1").2.2.2.2.2.2.mpr (by decide),
      (modified_coalesced storeA storeA "A" "1" "B" "C" "t1").2.1.2.2.2.2⟩⟩

/-- When a key other than the sentinel is present, `updateLastModified` takes its second
branch. -/
theorem updateLastModified_of_other (d : CustomData) (now k : QString)
    (hk : k ≠ LastModified) (hc : d.m_data.contains k = true) :
    (d.updateLastModified now).m_data = d.m_data.insert LastModified now := by
  rw [updateLastModified_m_data]
  rw [if_neg]
  intro hh
  exact hk ((QHash.alone_iff d.m_data LastModified).mp hh k hc)

/-- When no key other than the sentinel is present, `updateLastModified` leaves no key. -/
theorem updateLastModified_of_alone (d : CustomData) (now : QString)
    (hal : ∀ k, d.m_data.contains k = true → k = LastModified) :
    ∀ k, (d.updateLastModified now).m_data.contains k = false := by
  intro k
  rw [updateLastModified_m_data, if_pos ((QHash.alone_iff d.m_data LastModified).mpr hal),
    QHash.contains_remove]
  by_cases hk : k = LastModified
  · simp [hk]
  · cases hc : d.m_data.contains k
    · simp
    · exact absurd (hal k hc) hk

/-- Claim C15, first insertion: for a key `k` other than `_LAST_MODIFIED`, `set(k, v)` on the
empty store gives a store of size 2 whose keys are exactly `k` and `_LAST_MODIFIED`; the
signals are `aboutToBeAdded(k), modified, added(k)`, so `added(k)` and `modified` are each
fired exactly once. -/
theorem first_insertion (k v now : QString) (hk : k ≠ LastModified) :
    (CustomData.empty.set k v now).size = 2 ∧
      (CustomData.empty.set k v now).keys = {k, LastModified} ∧
      (CustomData.empty.set k v now).emitted =
        [Signal.aboutToBeAdded k, Signal.modified, Signal.added k] ∧
      (CustomData.empty.set k v now).emitted.count (Signal.added k) = 1 ∧
      modifiedCount (CustomData.empty.set k v now).emitted = 1 := by
  have hno : CustomData.empty.m_data.contains k = false := by
    rw [QHash.contains_eq_false_iff]
    exact Finmap.not_mem_empty
  have hkeys : (CustomData.empty.set k v now).keys = {k, LastModified} := by
    rw [set_of_absent _ k v now hno]
    simp only [keys, emit_m_data, emitModified_m_data]
    rw [updateLastModified_of_other _ now k hk (by simp [QHash.contains_insert])]
    rw [QHash.keys_insert, QHash.keys_insert]
    ext j
    simp only [CustomData.empty, Finmap.keys_empty, Finset.mem_insert, Finset.mem_singleton,
      Finset.not_mem_empty, or_false]
    exact or_comm
  have hem : (CustomData.empty.set k v now).emitted =
      [Signal.aboutToBeAdded k, Signal.modified, Signal.added k] := by
    rw [set_of_absent _ k v now hno]
    simp [CustomData.empty]
  refine ⟨?_, hkeys, hem, ?_, ?_⟩
  · have hs : (CustomData.empty.set k v now).size = (CustomData.empty.set k v now).keys.card := rfl
    rw [hs, hkeys]
    exact Finset.card_pair hk
  · rw [hem]
    simp [List.count_cons]
  · rw [hem]
    simp [modifiedCount, List.count_cons]

/-- Claim C15 at `set("Title", "x")` on the empty store. -/
theorem first_insertion_witness :
    (CustomData.empty.set "Title" "x" "t0").size = 2 ∧
      (CustomData.empty.set "Title" "x" "t0").keys = {"Title", LastModified} ∧
      (CustomData.empty.set "Title" "x" "t0").emitted =
        [Signal.aboutToBeAdded "Title", Signal.modified, Signal.added "Title"] ∧
      (CustomData.empty.set "Title" "x" "t0").emitted.count (Signal.added "Title") = 1 ∧
      modifiedCount (CustomData.empty.set "Title" "x" "t0").emitted = 1 :=
  first_insertion "Title" "x" "t0" (by decide)

/-- After `updateLastModified` the sentinel, if present, holds the clock string. -/
theorem updateLastModified_value_sentinel (d : CustomData) (now : QString)
    (h : (d.updateLastModified now).m_data.contains LastModified = true) :
    (d.updateLastModified now).m_data.value LastModified = now := by
  rw [updateLastModified_m_data] at h ⊢
  split at h
  · simp [QHash.contains_remove] at h
  · rw [if_neg (by assumption)]
    exact QHash.value_insert_self _ _ _

/-- In a state reached with the clock record `clocks`, the sentinel holds one of them. -/
theorem clock_of_reachableClock (clocks : List QString) (d : CustomData)
    (h : ReachableClock clocks d) :
    d.m_data.contains LastModified = true → d.m_data.value LastModified ∈ clocks := by
  induction h with
  | empty =>
    intro hc
    rw [QHash.contains_eq_true_iff] at hc
    exact absurd hc Finmap.not_mem_empty
  | set clocks d key value now _ ih =>
    cases hc : d.m_data.contains key
    · rw [set_of_absent d key value now hc]
      intro hs
      exact List.mem_cons.mpr (Or.inl (updateLastModified_value_sentinel _ now hs))
    · by_cases hv : d.m_data.value key = value
      · rw [set_of_same d key value now hc hv]
        exact fun hs => List.mem_cons_of_mem _ (ih hs)
      · rw [set_of_changed d key value now hc hv]
        intro hs
        exact List.mem_cons.mpr (Or.inl (updateLastModified_value_sentinel _ now hs))
  | remove clocks d key now _ ih =>
    cases hc : d.m_data.contains key
    · rw [remove_of_absent d key now hc]
      exact fun hs => List.mem_cons_of_mem _ (ih hs)
    · rw [remove_of_present d key now hc]
      intro hs
      exact List.mem_cons.mpr (Or.inl (updateLastModified_value_sentinel _ now hs))
  | rename clocks d oldKey newKey now _ ih =>
    by_cases h : d.m_data.contains oldKey = false ∨ d.m_data.contains newKey = true
    · rw [rename_of_rejected d oldKey newKey now h]
      exact fun hs => List.mem_cons_of_mem _ (ih hs)
    · have ho : d.m_data.contains oldKey = true := by
        cases hc : d.m_data.contains oldKey
        · exact absurd (Or.inl hc) h
        · rfl
      have hn : d.m_data.contains newKey = false := by
        cases hc : d.m_data.contains newKey
        · rfl
        · exact absurd (Or.inr hc) h
      rw [rename_of_accepted d oldKey newKey now ho hn]
      intro hs
      exact List.mem_cons.mpr (Or.inl (updateLastModified_value_sentinel _ now hs))
  | copyDataFrom clocks clocksOther d other now _ _ ih _ =>
    cases hc : d.operatorEq other
    · rw [copyDataFrom_of_unequal d other now hc]
      intro hs
      exact List.mem_cons.mpr (Or.inl (updateLastModified_value_sentinel _ now hs))
    · rw [copyDataFrom_of_equal d other now hc]
      exact fun hs => List.mem_cons_of_mem _ (ih hs)
  | clear clocks d _ _ =>
    intro hc
    rw [QHash.contains_eq_true_iff] at hc
    exact absurd hc Finmap.not_mem_empty

/-- The states of `Reachable` are those of `ReachableClock`, for some record of the clock. -/
theorem reachable_iff_reachableClock (d : CustomData) :
    Reachable d ↔ ∃ clocks, ReachableClock clocks d := by
  constructor
  · intro h
    induction h with
    | empty => exact ⟨[], ReachableClock.empty⟩
    | set d key value now _ ih =>
      obtain ⟨cs, hcs⟩ := ih
      exact ⟨now :: cs, ReachableClock.set cs d key value now hcs⟩
    | remove d key now _ ih =>
      obtain ⟨cs, hcs⟩ := ih
      exact ⟨now :: cs, ReachableClock.remove cs d key now hcs⟩
    | rename d oldKey newKey now _ ih =>
      obtain ⟨cs, hcs⟩ := ih
      exact ⟨now :: cs, ReachableClock.rename cs d oldKey newKey now hcs⟩
    | copyDataFrom d other now _ _ ih ih2 =>
      obtain ⟨cs, hcs⟩ := ih
      obtain ⟨cs2, hcs2⟩ := ih2
      exact ⟨now :: cs, ReachableClock.copyDataFrom cs cs2 d other now hcs hcs2⟩
    | clear d _ ih =>
      obtain ⟨cs, hcs⟩ := ih
      exact ⟨cs, ReachableClock.clear cs d hcs⟩
  · rintro ⟨cs, h⟩
    induction h with
    | empty => exact Reachable.empty
    | set _ d key value now _ ih => exact Reachable.set d key value now ih
    | remove _ d key now _ ih => exact Reachable.remove d key now ih
    | rename _ d oldKey newKey now _ ih => exact Reachable.rename d oldKey newKey now ih
    | copyDataFrom _ _ d other now _ _ ih ih2 => exact Reachable.copyDataFrom d other now ih ih2
    | clear _ d _ ih => exact Reachable.clear d ih

/-- Claim C16, the sentinel value is the store's own: in every state reached from the empty
store by `set`, `remove`, `rename`, `copyDataFrom` (from a reachable store) and `clear`, if
`_LAST_MODIFIED` is present its value is one of the strings the clock had for an earlier
call on this store; and after a further `set("_LAST_MODIFIED", v)` the value under
`_LAST_MODIFIED`, if the key is present, is again one of the clock strings (that of this call
included), so the caller's `v` remains only if it is such a string. -/
theorem sentinel_value_from_clock (clocks : List QString) (d : CustomData)
    (h : ReachableClock clocks d) :
    (d.contains LastModified = true → d.value LastModified ∈ clocks) ∧
      ∀ v now, (d.set LastModified v now).contains LastModified = true →
        (d.set LastModified v now).value LastModified ∈ now :: clocks :=
  ⟨clock_of_reachableClock clocks d h, fun v now =>
    clock_of_reachableClock (now :: clocks) _ (ReachableClock.set clocks d LastModified v now h)⟩

/-- Claim C16 at the state reached by `set("A", "1")` with the clock at `"t0"`, followed by
`set("_LAST_MODIFIED", "mine")` with the clock at `"t1"`. -/
theorem sentinel_value_from_clock_witness :
    ReachableClock ["t0"] (CustomData.empty.set "A" "1" "t0") ∧
      (CustomData.empty.set "A" "1" "t0").value LastModified ∈ ["t0"] ∧
      ((CustomData.empty.set "A" "1" "t0").set LastModified "mine" "t1").value LastModified ∈
        ["t1", "t0"] :=
  ⟨ReachableClock.set [] _ "A" "1" "t0" ReachableClock.empty,
    (sentinel_value_from_clock ["t0"] _
      (ReachableClock.set [] _ "A" "1" "t0" ReachableClock.empty)).1 (by decide),
    (sentinel_value_from_clock ["t0"] _
      (ReachableClock.set [] _ "A" "1" "t0" ReachableClock.empty)).2 "mine" "t1" (by decide)⟩

/-- Claim C17, the sentinel is never alone after a real mutation, whatever the map before:
after a `set` that adds or changes a key, a `remove` of a present key, a `rename` with the old
key present and the new one absent, or a `copyDataFrom` from a store that is not
content-equal, `_LAST_MODIFIED` is present if and only if another key is; and
`remove("_LAST_MODIFIED")` on a store holding `_LAST_MODIFIED` alone leaves it empty. -/
theorem sentinel_never_alone (d other : CustomData) (key value oldKey newKey now : QString) :
    ((d.contains key = false ∨ d.value key ≠ value) →
        SentinelInv (d.set key value now).m_data) ∧
      (d.contains key = true → SentinelInv (d.remove key now).m_data) ∧
      (d.contains oldKey = true → d.contains newKey = false →
        SentinelInv (d.rename oldKey newKey now).m_data) ∧
      (d.operatorEq other = false → SentinelInv (d.copyDataFrom other now).m_data) ∧
      (∀ t0, ((sentinelOnly t0).remove LastModified now).isEmpty = true) := by
  refine ⟨?_, ?_, ?_, ?_, ?_⟩
  · intro h
    cases hc : d.m_data.contains key
    · rw [set_of_absent d key value now hc]
      exact sentinelInv_updateLastModified _ now
    · have hv : d.m_data.value key ≠ value := by
        rcases h with h | h
        · rw [contains, hc] at h
          exact Bool.noConfusion h
        · exact h
      rw [set_of_changed d key value now hc hv]
      exact sentinelInv_updateLastModified _ now
  · intro h
    rw [remove_of_present d key now h]
    exact sentinelInv_updateLastModified _ now
  · intro ho hn
    rw [rename_of_accepted d oldKey newKey now ho hn]
    exact sentinelInv_updateLastModified _ now
  · intro h
    rw [copyDataFrom_of_unequal d other now h]
    exact sentinelInv_updateLastModified _ now
  · intro t0
    have hc : (sentinelOnly t0).m_data.contains LastModified = true := by
      simp [sentinelOnly, QHash.contains_insert]
    rw [remove_of_present _ LastModified now hc, isEmpty, QHash.isEmpty_eq_true_iff]
    simp only [emit_m_data, emitModified_m_data]
    apply updateLastModified_of_alone
    intro k hk
    simp only [emit_m_data, QHash.contains_remove, Bool.and_eq_true, decide_eq_true_eq] at hk
    exact absurd (by
      have h2 := hk.2
      simp only [sentinelOnly, QHash.contains_insert, Bool.or_eq_true, decide_eq_true_eq,
        QHash.contains_eq_true_iff] at h2
      rcases h2 with h2 | h2
      · exact h2
      · exact absurd h2 Finmap.not_mem_empty) hk.1

/-- Claim C17 on the pathological store `{"_LAST_MODIFIED": "t0"}`: after `set("A", "1")` the
sentinel has company, and after `remove("_LAST_MODIFIED")` the store is empty. -/
theorem sentinel_never_alone_witness :
    SentinelInv ((sentinelOnly "t0").set "A" "1" "t1").m_data ∧
      SentinelInv ((sentinelOnly "t0").remove LastModified "t1").m_data ∧
      ((sentinelOnly "t0").remove LastModified "t1").isEmpty = true :=
  ⟨(sentinel_never_alone (sentinelOnly "t0") CustomData.empty "A" "1" "A" "B" "t1").1
      (Or.inl (by decide)),
    (sentinel_never_alone (sentinelOnly "t0") CustomData.empty LastModified "1" "A" "B" "t1").2.1
      (by decide),
    (sentinel_never_alone (sentinelOnly "t0") CustomData.empty "A" "1" "A" "B" "t1").2.2.2.2 "t0"⟩

/-- Claim C18, `set` then `value` for ordinary keys: for a key `k` other than
`_LAST_MODIFIED` and any value `v`, after `set(k, v)` the key is present and `value(k)` is
`v`, whether `k` was new, changed or unchanged. -/
theorem set_value_roundtrip (d : CustomData) (k v now : QString) (hk : k ≠ LastModified) :
    (d.set k v now).contains k = true ∧ (d.set k v now).value k = v := by
  cases hc : d.m_data.contains k
  · rw [set_of_absent d k v now hc]
    simp only [contains, value, emit_m_data, emitModified_m_data]
    rw [updateLastModified_contains_of_ne _ _ _ hk, updateLastModified_value_of_ne _ _ _ hk]
    exact ⟨by simp [QHash.contains_insert], QHash.value_insert_self _ _ _⟩
  · by_cases hv : d.m_data.value k = v
    · rw [set_of_same d k v now hc hv]
      exact ⟨hc, hv⟩
    · rw [set_of_changed d k v now hc hv]
      simp only [contains, value, emitModified_m_data]
      rw [updateLastModified_contains_of_ne _ _ _ hk, updateLastModified_value_of_ne _ _ _ hk]
      exact ⟨by simp [QHash.contains_insert], QHash.value_insert_self _ _ _⟩

/-- Claim C18 on `{"A": "1", "_LAST_MODIFIED": "t0"}` at the new key `"B"`. -/
theorem set_value_roundtrip_witness :
    (storeA.set "B" "2" "t1").contains "B" = true ∧ (storeA.set "B" "2" "t1").value "B" = "2" :=
  set_value_roundtrip storeA "B" "2" "t1" (by decide)

/-- Claim C19, mutations touch only the named keys and the sentinel: for a key `j` other
than `_LAST_MODIFIED`, `set(k, v)` and `remove(k)` with `k != j`, and `rename(a, b)` with
`a != j` and `b != j`, leave `contains(j)` and `value(j)` as they were. -/
theorem mutations_frame (d : CustomData) (j k v a b now : QString) (hj : j ≠ LastModified) :
    (k ≠ j →
        (d.set k v now).contains j = d.contains j ∧ (d.set k v now).value j = d.value j) ∧
      (k ≠ j →
        (d.remove k now).contains j = d.contains j ∧ (d.remove k now).value j = d.value j) ∧
      (a ≠ j → b ≠ j →
        (d.rename a b now).contains j = d.contains j ∧
          (d.rename a b now).value j = d.value j) := by
  refine ⟨?_, ?_, ?_⟩
  · intro hkj
    have hjk : j ≠ k := Ne.symm hkj
    cases hc : d.m_data.contains k
    · rw [set_of_absent d k v now hc]
      simp only [contains, value, emit_m_data, emitModified_m_data]
      rw [updateLastModified_contains_of_ne _ _ _ hj, updateLastModified_value_of_ne _ _ _ hj]
      exact ⟨by simp [QHash.contains_insert, hjk], QHash.value_insert_of_ne _ _ _ _ hjk⟩
    · by_cases hv : d.m_data.value k = v
      · rw [set_of_same d k v now hc hv]
        exact ⟨rfl, rfl⟩
      · rw [set_of_changed d k v now hc hv]
        simp only [contains, value, emitModified_m_data]
        rw [updateLastModified_contains_of_ne _ _ _ hj, updateLastModified_value_of_ne _ _ _ hj]
        exact ⟨by simp [QHash.contains_insert, hjk], QHash.value_insert_of_ne _ _ _ _ hjk⟩
  · intro hkj
    have hjk : j ≠ k := Ne.symm hkj
    cases hc : d.m_data.contains k
    · rw [remove_of_absent d k now hc]
      exact ⟨rfl, rfl⟩
    · rw [remove_of_present d k now hc]
      simp only [contains, value, emit_m_data, emitModified_m_data]
      rw [updateLastModified_contains_of_ne _ _ _ hj, updateLastModified_value_of_ne _ _ _ hj]
      exact ⟨by simp [QHash.contains_remove, hjk], QHash.value_remove_of_ne _ _ _ hjk⟩
  · intro haj hbj
    have hja : j ≠ a := Ne.symm haj
    have hjb : j ≠ b := Ne.symm hbj
    by_cases h : d.m_data.contains a = false ∨ d.m_data.contains b = true
    · rw [rename_of_rejected d a b now h]
      exact ⟨rfl, rfl⟩
    · have ho : d.m_data.contains a = true := by
        cases hc : d.m_data.contains a
        · exact absurd (Or.inl hc) h
        · rfl
      have hn : d.m_data.contains b = false := by
        cases hc : d.m_data.contains b
        · rfl
        · exact absurd (Or.inr hc) h
      rw [rename_of_accepted d a b now ho hn]
      simp only [contains, value, emit_m_data, emitModified_m_data]
      rw [updateLastModified_contains_of_ne _ _ _ hj, updateLastModified_value_of_ne _ _ _ hj]
      refine ⟨by simp [QHash.contains_insert, QHash.contains_remove, hja, hjb], ?_⟩
      rw [QHash.value_insert_of_ne _ _ _ _ hjb, QHash.value_remove_of_ne _ _ _ hja]

/-- Claim C19 on `{"A": "1", "_LAST_MODIFIED": "t0"}` for the key `"A"`, under `set("B", "2")`,
`remove("B")` and `rename("_LAST_MODIFIED", "C")`. -/
theorem mutations_frame_witness :
    ((storeA.set "B" "2" "t1").contains "A" = storeA.contains "A" ∧
        (storeA.set "B" "2" "t1").value "A" = storeA.value "A") ∧
      ((storeA.remove "B" "t1").contains "A" = storeA.contains "A" ∧
        (storeA.remove "B" "t1").value "A" = storeA.value "A") ∧
      ((storeA.rename LastModified "C" "t1").contains "A" = storeA.contains "A" ∧
        (storeA.rename LastModified "C" "t1").value "A" = storeA.value "A") :=
  ⟨(mutations_frame storeA "A" "B" "2" LastModified "C" "t1" (by decide)).1 (by decide),
    (mutations_frame storeA "A" "B" "2" LastModified "C" "t1" (by decide)).2.1 (by decide),
    (mutations_frame storeA "A" "B" "2" LastModified "C" "t1" (by decide)).2.2
      (by decide) (by decide)⟩

/-- Claim C20, `remove` ensures absence only for ordinary keys: for a key `k` other than
`_LAST_MODIFIED`, after `remove(k)` the key is absent; whereas on a store holding
`_LAST_MODIFIED` together with another key, after `remove("_LAST_MODIFIED")` the key
`_LAST_MODIFIED` is present, with the clock string of the call as its value, `size()` is what
it was, and `modified` has been fired, between `aboutToBeRemoved` and `removed`. -/
theorem remove_absence (d : CustomData) (k now : QString) :
    (k ≠ LastModified → (d.remove k now).contains k = false) ∧
      (d.contains LastModified = true → (∃ j, j ≠ LastModified ∧ d.contains j = true) →
        (d.remove LastModified now).contains LastModified = true ∧
          (d.remove LastModified now).value LastModified = now ∧
          (d.remove LastModified now).size = d.size ∧
          (d.remove LastModified now).emitted =
            d.emitted ++ [Signal.aboutToBeRemoved LastModified, Signal.modified,
              Signal.removed LastModified]) := by
  constructor
  · intro hk
    cases hc : d.m_data.contains k
    · rw [remove_of_absent d k now hc]
      exact hc
    · rw [remove_of_present d k now hc]
      simp only [contains, emit_m_data, emitModified_m_data]
      rw [updateLastModified_contains_of_ne _ _ _ hk]
      simp [QHash.contains_remove]
  · rintro hs ⟨j, hj, hjc⟩
    have hm : (d.remove LastModified now).m_data =
        (d.m_data.remove LastModified).insert LastModified now := by
      rw [remove_of_present d LastModified now hs]
      simp only [emit_m_data, emitModified_m_data]
      exact updateLastModified_of_other _ now j hj
        (by simpa [QHash.contains_remove, hj] using hjc)
    refine ⟨?_, ?_, ?_, ?_⟩
    · rw [contains, hm]
      simp [QHash.contains_insert]
    · rw [value, hm]
      exact QHash.value_insert_self _ _ _
    · rw [size, hm, QHash.size, QHash.keys_insert, QHash.keys_remove]
      rw [Finset.insert_erase (Finmap.mem_keys.mpr ((QHash.contains_eq_true_iff _ _).mp hs))]
      rfl
    · rw [remove_of_present d LastModified now hs]
      simp

/-- Claim C20 on `{"A": "1", "_LAST_MODIFIED": "t0"}`: `remove("A")` leaves `"A"` absent, and
`remove("_LAST_MODIFIED")` leaves `_LAST_MODIFIED` present with the value `"t1"`. -/
theorem remove_absence_witness :
    (storeA.remove "A" "t1").contains "A" = false ∧
      ((storeA.remove LastModified "t1").contains LastModified = true ∧
        (storeA.remove LastModified "t1").value LastModified = "t1" ∧
        (storeA.remove LastModified "t1").size = storeA.size ∧
        (storeA.remove LastModified "t1").emitted =
          storeA.emitted ++ [Signal.aboutToBeRemoved LastModified, Signal.modified,
            Signal.removed LastModified]) :=
  ⟨(remove_absence storeA "A" "t1").1 (by decide),
    (remove_absence storeA "A" "t1").2 (by decide) ⟨"A", by decide, by decide⟩⟩

end CustomData
